import Mathlib

/-!
# KubeRay operator entrypoint (`ray-operator/main.go`)

A shallow embedding of `main`: the definition of the command-line flags,
`flag.Parse`, the `-version` exit, and the construction of the
controller-manager options from the `-watch-namespace` value.

* Go strings are modelled by Lean strings (sequences of characters). Every
  byte the code inspects (`-`, `=`, `,`, digits, letters) is ASCII, so on UTF-8
  text the byte-wise operations of Go and the character-wise operations below
  cut at the same places.
* The Go standard library functions `main` calls (`strconv.ParseBool`,
  `strconv.ParseInt`, `strings.Split`, `flag.Parse`) are embedded alongside,
  each in a namespace named after its package. Go's package `main` is the
  namespace `operator`.
* What `main` cannot see is a parameter: the values the two variables of
  package `ray` hold when `main` starts, and the flags that the zap options
  of controller-runtime add to the flag set.
* A run ends in an `Outcome`: a panic, an exit status, or the values `main`
  hands to controller-runtime and to the reconciler of package `ray`.
-/

set_option autoImplicit false

/-! ## Package `strconv` -/

namespace strconv

/-- The two error causes of package `strconv` that number parsing reports. -/
inductive NumError where
  | ErrSyntax
  | ErrRange
  deriving DecidableEq, Repr

/-- Result of a `strconv` parse: the value, or the error cause. -/
inductive Parsed (α : Type) where
  | ok (value : α)
  | err (cause : NumError)
  deriving DecidableEq, Repr

/-- Go `strconv.ParseBool`: accepts 1, t, T, TRUE, true, True, 0, f, F, FALSE,
false, False; any other string is a syntax error. -/
def ParseBool (str : String) : Parsed Bool :=
  if str = "1" ∨ str = "t" ∨ str = "T" ∨ str = "true" ∨ str = "TRUE" ∨ str = "True" then
    .ok true
  else if str = "0" ∨ str = "f" ∨ str = "F" ∨ str = "false" ∨ str = "FALSE" ∨ str = "False" then
    .ok false
  else
    .err .ErrSyntax

/-- Go `strconv.IntSize` on the 64-bit targets the operator is built for. -/
def IntSize : Nat := 64

/-- Go `lower(c)`: `c | ('x' - 'X')`, the lower-case form of an ASCII letter. -/
def lower (c : Nat) : Nat := c ||| 32

/-- Go `underscoreOK`, the loop over the number proper. `saw` is the last
character class seen: `'0'` a digit or base prefix, `'_'` an underscore, `'!'`
anything else, `'^'` the beginning. -/
def underscoreOKLoop (hex : Bool) : Char → List Char → Bool
  | saw, [] => saw != '_'
  | saw, c :: rest =>
    if ('0' ≤ c ∧ c ≤ '9') ∨ (hex = true ∧ 97 ≤ lower c.toNat ∧ lower c.toNat ≤ 102) then
      underscoreOKLoop hex '0' rest
    else if c = '_' then
      if saw ≠ '0' then false else underscoreOKLoop hex '_' rest
    else if saw = '_' then false
    else underscoreOKLoop hex '!' rest

/-- Go `underscoreOK`: underscores must separate digits (the base prefix counts
as a digit). -/
def underscoreOK (s : List Char) : Bool :=
  let s := match s with
    | '-' :: t => t
    | '+' :: t => t
    | _ => s
  match s with
  | '0' :: p :: t =>
    if lower p.toNat = 98 ∨ lower p.toNat = 111 ∨ lower p.toNat = 120 then
      underscoreOKLoop (lower p.toNat = 120) '0' t
    else underscoreOKLoop false '^' s
  | _ => underscoreOKLoop false '^' s

/-- The digit loop of Go `strconv.ParseUint`: `n` is the value so far,
`underscores` records whether an underscore was skipped. Returns the value and
the `underscores` flag, or the error. -/
def parseUintLoop (base0 : Bool) (base cutoff maxVal : Nat) :
    Nat → Bool → List Char → Parsed (Nat × Bool)
  | n, underscores, [] => .ok (n, underscores)
  | n, underscores, c :: rest =>
    if c = '_' ∧ base0 = true then parseUintLoop base0 base cutoff maxVal n true rest
    else
      let d? : Option Nat :=
        if '0' ≤ c ∧ c ≤ '9' then some (c.toNat - 48)
        else if 97 ≤ lower c.toNat ∧ lower c.toNat ≤ 122 then some (lower c.toNat - 97 + 10)
        else none
      match d? with
      | none => .err .ErrSyntax
      | some d =>
        if d ≥ base then .err .ErrSyntax
        else if n ≥ cutoff then .err .ErrRange
        else
          let n1 := n * base + d
          if n1 ≥ 2 ^ 64 ∨ n1 > maxVal then .err .ErrRange
          else parseUintLoop base0 base cutoff maxVal n1 underscores rest

/-- Go `strconv.ParseUint(s, base, bitSize)` for `base` 0 or 2..36 and
`bitSize` 1..64. With base 0 the prefix selects the base: `0b`, `0o`, `0x`,
a bare leading `0` (octal), decimal otherwise; underscores are then allowed
as digit separators. -/
def ParseUint (s : List Char) (base bitSize : Nat) : Parsed Nat :=
  match s with
  | [] => .err .ErrSyntax
  | c0 :: t0 =>
    let base0 := base == 0
    let (base, digits) : Nat × List Char :=
      if base = 0 then
        if c0 = '0' then
          match t0 with
          | p :: d :: t =>
            if lower p.toNat = 98 then (2, d :: t)
            else if lower p.toNat = 111 then (8, d :: t)
            else if lower p.toNat = 120 then (16, d :: t)
            else (8, t0)
          | _ => (8, t0)
        else (10, s)
      else (base, s)
    let cutoff := (2 ^ 64 - 1) / base + 1
    let maxVal := 2 ^ bitSize - 1
    match parseUintLoop base0 base cutoff maxVal 0 false digits with
    | .err e => .err e
    | .ok (n, underscores) =>
      if underscores = true ∧ underscoreOK s = false then .err .ErrSyntax
      else .ok n

/-- Go `strconv.ParseInt(s, base, bitSize)`: an optional sign followed by what
`ParseUint` accepts, within the range of a signed `bitSize`-bit integer. -/
def ParseInt (s : String) (base bitSize : Nat) : Parsed Int :=
  match s.data with
  | [] => .err .ErrSyntax
  | c0 :: t0 =>
    let (neg, body) : Bool × List Char :=
      if c0 = '+' then (false, t0)
      else if c0 = '-' then (true, t0)
      else (false, c0 :: t0)
    match ParseUint body base bitSize with
    | .err e => .err e
    | .ok un =>
      let cutoff := 2 ^ (bitSize - 1)
      if neg = false ∧ un ≥ cutoff then .err .ErrRange
      else if neg = true ∧ un > cutoff then .err .ErrRange
      else .ok (if neg then -(un : Int) else (un : Int))

end strconv

/-! ## Package `strings` -/

namespace strings

/-- Go `strings.IndexByte(s, c)`: the index of the first `c` in `s`, if any. -/
def IndexByte : List Char → Char → Option Nat
  | [], _ => none
  | x :: rest, c => if x = c then some 0 else (IndexByte rest c).map (· + 1)

/-- Go `strings.Count(s, sep)` for a one-byte `sep`: the number of occurrences. -/
def Count : List Char → Char → Nat
  | [], _ => 0
  | x :: rest, c => (if x = c then 1 else 0) + Count rest c

/-- The loop of Go `genSplit` with `sepSave = 0` and a one-byte separator:
at most `n` cuts, each at the first separator of what is left; the remainder
is the last element. -/
def genSplitLoop (c : Char) : Nat → List Char → List String
  | 0, s => [String.mk s]
  | n + 1, s =>
    match IndexByte s c with
    | none => [String.mk s]
    | some m => String.mk (s.take m) :: genSplitLoop c n (s.drop (m + 1))

/-- Go `strings.Split(s, sep)` for a one-byte separator `sep`, the way `main`
calls it: `genSplit(s, sep, 0, -1)`, which sizes the result by
`Count(s, sep) + 1` and cuts at each separator in turn. -/
def Split (s : String) (sep : Char) : List String :=
  genSplitLoop sep (Count s.data sep) s.data

/-- Go `strings.Join(elems, sep)`: the elements in order with `sep` between
neighbours. -/
def Join : List String → String → String
  | [], _ => ""
  | [a], _ => a
  | a :: b :: rest, sep => a ++ sep ++ Join (b :: rest) sep

end strings

/-! ## Package `flag` -/

namespace flag

/-- The errors `parseOne` returns: `ErrHelp` for an undefined `-h`/`-help`,
and every error built by `failf`. -/
inductive Error where
  | ErrHelp
  | failf
  deriving DecidableEq, Repr

/-- Go `flag.Value` over program variables `σ`: whether the value is a boolean
flag (`IsBoolFlag`), and `Set`, which stores the parsed string through the
pointer the value was made with (`none`: `Set` returned an error). -/
structure Value (σ : Type) where
  IsBoolFlag : Bool
  Set : String → σ → Option σ

/-- Go `flag.Flag`: the name of a flag and its value. -/
structure Flag (σ : Type) where
  Name : String
  Value : Value σ

/-- Go `flag.FlagSet`: the defined flags (`formal`) and the arguments not yet
consumed (`args`). -/
structure FlagSet (σ : Type) where
  formal : List (Flag σ)
  args : List String

/-- Go `flag.CommandLine` before any flag is defined. -/
def CommandLine (σ : Type) : FlagSet σ := { formal := [], args := [] }

variable {σ : Type}

/-- Go `newBoolValue(_, p)`: a boolean flag whose `Set` stores what
`strconv.ParseBool` reads through `p`. -/
def newBoolValue (p : Bool → σ → σ) : Value σ :=
  { IsBoolFlag := true
    Set := fun s v =>
      match strconv.ParseBool s with
      | .ok b => some (p b v)
      | .err _ => none }

/-- Go `newIntValue(_, p)`: its `Set` stores what
`strconv.ParseInt(s, 0, strconv.IntSize)` reads through `p`. -/
def newIntValue (p : Int → σ → σ) : Value σ :=
  { IsBoolFlag := false
    Set := fun s v =>
      match strconv.ParseInt s 0 strconv.IntSize with
      | .ok n => some (p n v)
      | .err _ => none }

/-- Go `newStringValue(_, p)`: its `Set` stores the string through `p` and
never fails. -/
def newStringValue (p : String → σ → σ) : Value σ :=
  { IsBoolFlag := false
    Set := fun s v => some (p s v) }

/-- Lookup in the map `f.formal`. -/
def FlagSet.lookup (f : FlagSet σ) (name : String) : Option (Flag σ) :=
  f.formal.find? (fun fl => fl.Name == name)

/-- Go `FlagSet.Var(value, name, usage)`: defines a flag; `none` is the panic
on a name that is already defined. -/
def FlagSet.Var (f : FlagSet σ) (value : Value σ) (name : String) : Option (FlagSet σ) :=
  match f.lookup name with
  | some _ => none
  | none => some { f with formal := f.formal ++ [{ Name := name, Value := value }] }

/-- Go `flag.BoolVar(p, name, value, usage)`: stores the default through `p`,
then defines the flag. -/
def BoolVar (c : FlagSet σ × σ) (p : Bool → σ → σ) (name : String) (value : Bool) :
    Option (FlagSet σ × σ) :=
  (c.1.Var (newBoolValue p) name).map
    (fun f => (f, p value c.2))

/-- Go `flag.IntVar(p, name, value, usage)`. -/
def IntVar (c : FlagSet σ × σ) (p : Int → σ → σ) (name : String) (value : Int) :
    Option (FlagSet σ × σ) :=
  (c.1.Var (newIntValue p) name).map
    (fun f => (f, p value c.2))

/-- Go `flag.StringVar(p, name, value, usage)`. -/
def StringVar (c : FlagSet σ × σ) (p : String → σ → σ) (name : String) (value : String) :
    Option (FlagSet σ × σ) :=
  (c.1.Var (newStringValue p) name).map
    (fun f => (f, p value c.2))

/-- The scan of `parseOne` for the first `=` of the flag text (from its second
character on): the name before it and, when there is one, the value after it. -/
def cutValue : List Char → List Char × Option (List Char)
  | [] => ([], none)
  | c :: rest =>
    if c = '=' then ([], some rest)
    else ((c :: (cutValue rest).1), (cutValue rest).2)

/-- What one call of `parseOne` returns: `(false, nil)`, `(true, nil)` or
`(false, err)`, with the flag set and variables as it leaves them. -/
inductive Step (σ : Type) where
  | stop (f : FlagSet σ) (v : σ)
  | seen (f : FlagSet σ) (v : σ)
  | fail (e : Error)

/-- Go `FlagSet.parseOne`: parses one flag off the front of `f.args`. -/
def FlagSet.parseOne (f : FlagSet σ) (v : σ) : Step σ :=
  match f.args with
  | [] => .stop f v
  | s :: rest =>
    match s.data with
    | c0 :: c1 :: t =>
      if c0 ≠ '-' then .stop f v
      else if c1 = '-' ∧ t = [] then .stop { f with args := rest } v
      else
        match (if c1 = '-' then t else c1 :: t) with
        | [] => .fail .failf
        | n0 :: nt =>
          if n0 = '-' ∨ n0 = '=' then .fail .failf
          else
            let name := String.mk (n0 :: (cutValue nt).1)
            match f.lookup name with
            | none => if name = "help" ∨ name = "h" then .fail .ErrHelp else .fail .failf
            | some fl =>
              if fl.Value.IsBoolFlag = true then
                match (cutValue nt).2 with
                | some value =>
                  match fl.Value.Set (String.mk value) v with
                  | none => .fail .failf
                  | some v' => .seen { f with args := rest } v'
                | none =>
                  match fl.Value.Set "true" v with
                  | none => .fail .failf
                  | some v' => .seen { f with args := rest } v'
              else
                match (cutValue nt).2, rest with
                | some value, _ =>
                  match fl.Value.Set (String.mk value) v with
                  | none => .fail .failf
                  | some v' => .seen { f with args := rest } v'
                | none, value :: rest' =>
                  match fl.Value.Set value v with
                  | none => .fail .failf
                  | some v' => .seen { f with args := rest' } v'
                | none, [] => .fail .failf
    | _ => .stop f v

/-- How `Parse` ends: the loop broke with no error, or `parseOne` returned an
error (which `ExitOnError` turns into `os.Exit`). -/
inductive Parsed (σ : Type) where
  | ok (f : FlagSet σ) (v : σ)
  | error (e : Error)

/-- The loop of Go `FlagSet.Parse`, `for { seen, err := f.parseOne(); ... }`,
run for at most `fuel` iterations; `none` when that many did not end it. -/
def FlagSet.parseLoop : Nat → FlagSet σ → σ → Option (Parsed σ)
  | 0, _, _ => none
  | fuel + 1, f, v =>
    match f.parseOne v with
    | .seen f' v' => FlagSet.parseLoop fuel f' v'
    | .stop f' v' => some (.ok f' v')
    | .fail e => some (.error e)

/-- Go `FlagSet.Parse(arguments)`. Each iteration that continues consumes an
argument, so `len(arguments) + 1` iterations suffice (`Parse_terminates`). -/
def FlagSet.Parse (f : FlagSet σ) (arguments : List String) (v : σ) : Option (Parsed σ) :=
  FlagSet.parseLoop (arguments.length + 1) { f with args := arguments } v

end flag

/-! ## Packages `cache`, `ctrl`, `k8szap` and `ray`: what `main` touches -/

namespace cache

/-- A value of Go type `cache.NewCacheFunc`; `main` builds only
`cache.MultiNamespacedCacheBuilder(namespaces)`. -/
inductive NewCacheFunc where
  | MultiNamespacedCacheBuilder (namespaces : List String)
  deriving DecidableEq, Repr

end cache

namespace ctrl

/-- The fields of `ctrl.Options` that `main` writes (`Scheme`, the registry
built by `init`, is left out; all other fields keep their zero value).
`NewCache = none` is the nil function. -/
structure Options where
  MetricsBindAddress : String
  Port : Int
  HealthProbeBindAddress : String
  LeaderElection : Bool
  LeaderElectionID : String
  Namespace : String
  NewCache : Option cache.NewCacheFunc
  deriving DecidableEq, Repr

end ctrl

namespace k8szap

/-- A flag that `opts.BindFlags(flag.CommandLine)` defines (package
`controller-runtime/pkg/log/zap`, outside this repository). Its `Set` writes
into `opts`, which only the logger set-up reads; `accepts` says for which
strings `Set` returns no error. -/
structure BoundFlag where
  Name : String
  IsBoolFlag : Bool
  accepts : String → Bool

end k8szap

namespace ray

/-- The package-level variables of `controllers/ray` that `main` binds to
flags. -/
structure Package where
  ForcedClusterUpgrade : Bool
  EnableBatchScheduler : Bool
  deriving DecidableEq, Repr

end ray

/-! ## Package `main` -/

namespace operator

/-- The variables the flags of `main` point to: its locals (lines 48-54) and
the two variables of package `ray` (lines 66, 70). -/
structure Vars where
  version : Bool
  metricsAddr : String
  enableLeaderElection : Bool
  probeAddr : String
  reconcileConcurrency : Int
  watchNamespace : String
  logFile : String
  ray : ray.Package
  deriving DecidableEq, Repr

/-- How far a run gets: a Go panic, `os.Exit(code)`, a loop that did not end
within its bound, or the result of going on. -/
inductive Outcome (α : Type) where
  | panic
  | exit (code : Nat)
  | unfinished
  | ok (result : α)
  deriving DecidableEq, Repr

/-- The `flag.Value` that `BindFlags` defines for a flag of the zap options:
its `Set` writes none of the variables of `main`. -/
def zapValue (b : k8szap.BoundFlag) : flag.Value Vars :=
  { IsBoolFlag := b.IsBoolFlag
    Set := fun s v => if b.accepts s = true then some v else none }

/-- Go `opts.BindFlags(flag.CommandLine)`: defines each flag of the zap
options on the flag set. -/
def BindFlags (zapFlags : List k8szap.BoundFlag) (f : flag.FlagSet Vars) :
    Option (flag.FlagSet Vars) :=
  zapFlags.foldlM (fun f b => f.Var (zapValue b) b.Name) f

/-- Lines 48-77 of `main`: the locals at their zero values, the nine flags
it defines and `opts.BindFlags`. `pkg` holds the variables of package `ray` as
`main` finds them; `none` is the panic of a flag defined twice. -/
def defineFlags (pkg : ray.Package) (zapFlags : List k8szap.BoundFlag) :
    Option (flag.FlagSet Vars × Vars) := do
  let c : flag.FlagSet Vars × Vars :=
    (flag.CommandLine Vars,
      { version := false, metricsAddr := "", enableLeaderElection := false, probeAddr := "",
        reconcileConcurrency := 0, watchNamespace := "", logFile := "", ray := pkg })
  let c ← flag.BoolVar c (fun b v => { v with version := b }) "version" false
  let c ← flag.StringVar c (fun s v => { v with metricsAddr := s }) "metrics-addr" ":8080"
  let c ← flag.StringVar c (fun s v => { v with probeAddr := s }) "health-probe-bind-address"
    ":8082"
  let c ← flag.BoolVar c (fun b v => { v with enableLeaderElection := b })
    "enable-leader-election" true
  let c ← flag.IntVar c (fun n v => { v with reconcileConcurrency := n })
    "reconcile-concurrency" 1
  let c ← flag.StringVar c (fun s v => { v with watchNamespace := s }) "watch-namespace" ""
  let c ← flag.BoolVar c
    (fun b v => { v with ray := { v.ray with ForcedClusterUpgrade := b } })
    "forced-cluster-upgrade" false
  let c ← flag.StringVar c (fun s v => { v with logFile := s }) "log-file-path" ""
  let c ← flag.BoolVar c
    (fun b v => { v with ray := { v.ray with EnableBatchScheduler := b } })
    "enable-batch-scheduler" false
  let f ← BindFlags zapFlags c.1
  pure (f, c.2)

/-- Lines 48-78 of `main`: the flag definitions followed by `flag.Parse()`
on the command line `args` (`os.Args[1:]`). `flag.CommandLine` exits on a
parse error, with status 0 after the help text and 2 otherwise. The result is
the flag variables as `flag.Parse` leaves them. -/
def parseFlags (pkg : ray.Package) (zapFlags : List k8szap.BoundFlag) (args : List String) :
    Outcome Vars :=
  match defineFlags pkg zapFlags with
  | none => .panic
  | some (f, v) =>
    match f.Parse args v with
    | none => .unfinished
    | some (.error e) => .exit (if e = flag.Error.ErrHelp then 0 else 2)
    | some (.ok _ v) => .ok v

/-- Lines 119-139 of `main`: the manager options built from the flag values.
`none` is the index panic of `watchNamespaces[0]` on an empty slice. -/
def managerOptions (v : Vars) : Option ctrl.Options :=
  let watchNamespaces := strings.Split v.watchNamespace ','
  let options : ctrl.Options :=
    { MetricsBindAddress := v.metricsAddr
      Port := 9443
      HealthProbeBindAddress := v.probeAddr
      LeaderElection := v.enableLeaderElection
      LeaderElectionID := "ray-operator-leader"
      Namespace := ""
      NewCache := none }
  if watchNamespaces.length = 1 then
    match watchNamespaces[0]? with
    | none => none
    | some ns => some { options with Namespace := ns }
  else
    some { options with
      NewCache := some (cache.NewCacheFunc.MultiNamespacedCacheBuilder watchNamespaces) }

/-- What a run of `main` has fixed when it reaches `ctrl.NewManager`: the
flag variables after `flag.Parse`, the `options` passed to `ctrl.NewManager`
(line 141), and the concurrency passed to the RayCluster reconciler's
`SetupWithManager` (line 147, reached when `ctrl.NewManager` returns no
error). -/
structure Run where
  vars : Vars
  options : ctrl.Options
  reconcileConcurrency : Int
  deriving DecidableEq, Repr

/-- The function `main` of `ray-operator/main.go` on the command line
`args`, up to the calls into controller-runtime: flag definition and parsing,
the `-version` exit, and the manager options. The logging calls write none of
the variables and are left out. `unfinished` stands for a parse loop stopped
by its bound, which `main_finishes` rules out. -/
def main (pkg : ray.Package) (zapFlags : List k8szap.BoundFlag) (args : List String) :
    Outcome Run :=
  match parseFlags pkg zapFlags args with
  | .panic => .panic
  | .exit code => .exit code
  | .unfinished => .unfinished
  | .ok v =>
    if v.version = true then .exit 0
    else
      match managerOptions v with
      | none => .panic
      | some options =>
        .ok { vars := v, options := options, reconcileConcurrency := v.reconcileConcurrency }

end operator

/-! ## Vocabulary of the statements -/

namespace flag

variable {σ : Type}

/-- The command line passes the flag `name`: one of its arguments is `-name`
or `--name`, alone or continued by `=` and a value. -/
def passes (args : List String) (name : String) : Bool :=
  args.any fun arg =>
    arg == "-" ++ name || arg == "--" ++ name ||
      ("-" ++ name ++ "=").data.isPrefixOf arg.data ||
      ("--" ++ name ++ "=").data.isPrefixOf arg.data

/-- The command line gives `value` to the flag `name` at some place: an
argument `-name=value` or `--name=value`, or an argument `-name` or `--name`
directly followed by the argument `value`. -/
def gives (args : List String) (name value : String) : Prop :=
  (∃ arg ∈ args, arg = "-" ++ name ++ "=" ++ value ∨ arg = "--" ++ name ++ "=" ++ value) ∨
  (∃ pre arg post, args = pre ++ arg :: value :: post ∧
    (arg = "-" ++ name ∨ arg = "--" ++ name))

/-- The command line gives the boolean flag `name` as true at some place: an
argument `-name` or `--name` alone, or `-name=value` or `--name=value` with a
`value` that `strconv.ParseBool` reads as true. -/
def givesTrue (args : List String) (name : String) : Prop :=
  ∃ arg ∈ args, (arg = "-" ++ name ∨ arg = "--" ++ name) ∨
    ∃ value, strconv.ParseBool value = .ok true ∧
      (arg = "-" ++ name ++ "=" ++ value ∨ arg = "--" ++ name ++ "=" ++ value)

/-- The arguments `mid` are the flag `name` with `value`: the one argument
`-name=value` or `--name=value`, or the two arguments `-name` (or `--name`)
and `value`. -/
def spells (mid : List String) (name value : String) : Prop :=
  mid = ["-" ++ name ++ "=" ++ value] ∨ mid = ["--" ++ name ++ "=" ++ value] ∨
    mid = ["-" ++ name, value] ∨ mid = ["--" ++ name, value]

/-- How `parseOne` takes the flag `fl` with the string `value` off the front
`s :: rest` of the arguments, leaving `rest'`: `s` carries the value after
`=`; or `fl` is boolean and `s` is the bare flag, read as `"true"`; or `fl` is
not boolean, `s` is the bare flag and the value is the next argument. -/
def Consumes (fl : Flag σ) (value s : String) (rest rest' : List String) : Prop :=
  (rest' = rest ∧
      (s = "-" ++ fl.Name ++ "=" ++ value ∨ s = "--" ++ fl.Name ++ "=" ++ value)) ∨
    (rest' = rest ∧ fl.Value.IsBoolFlag = true ∧ value = "true" ∧
      (s = "-" ++ fl.Name ∨ s = "--" ++ fl.Name)) ∨
    (rest = value :: rest' ∧ fl.Value.IsBoolFlag = false ∧
      (s = "-" ++ fl.Name ∨ s = "--" ++ fl.Name))

/-- The flag set binds the flag `name` to the component `get` of the program
state: a flag of that name is boolean exactly when `isBool` says so and its
`Set` stores what `dec` reads from the string; the `Set` of every other flag
leaves the component alone. -/
structure Binds {α : Type} (formal : List (Flag σ)) (name : String) (isBool : Bool)
    (dec : String → Option α) (get : σ → α) : Prop where
  own : ∀ fl ∈ formal, fl.Name = name →
    fl.Value.IsBoolFlag = isBool ∧ ∀ s v v', fl.Value.Set s v = some v' → dec s = some (get v')
  other : ∀ fl ∈ formal, fl.Name ≠ name → ∀ s v v', fl.Value.Set s v = some v' → get v' = get v

end flag

namespace operator

/-- The flag that `BindFlags` defines for a flag of the zap options. -/
def zapFlag (b : k8szap.BoundFlag) : flag.Flag Vars :=
  { Name := b.Name, Value := zapValue b }

/-- The nine flags `main` defines, in the order of their definition. -/
def mainFlags : List (flag.Flag Vars) :=
  [ { Name := "version"
      Value := flag.newBoolValue (fun b v => { v with version := b }) },
    { Name := "metrics-addr"
      Value := flag.newStringValue (fun s v => { v with metricsAddr := s }) },
    { Name := "health-probe-bind-address"
      Value := flag.newStringValue (fun s v => { v with probeAddr := s }) },
    { Name := "enable-leader-election"
      Value := flag.newBoolValue (fun b v => { v with enableLeaderElection := b }) },
    { Name := "reconcile-concurrency"
      Value := flag.newIntValue (fun n v => { v with reconcileConcurrency := n }) },
    { Name := "watch-namespace"
      Value := flag.newStringValue (fun s v => { v with watchNamespace := s }) },
    { Name := "forced-cluster-upgrade"
      Value := flag.newBoolValue
        (fun b v => { v with ray := { v.ray with ForcedClusterUpgrade := b } }) },
    { Name := "log-file-path"
      Value := flag.newStringValue (fun s v => { v with logFile := s }) },
    { Name := "enable-batch-scheduler"
      Value := flag.newBoolValue
        (fun b v => { v with ray := { v.ray with EnableBatchScheduler := b } }) } ]

/-- The variables once the nine flags are defined: every one holds the default
of its flag. -/
def defaults : Vars :=
  { version := false, metricsAddr := ":8080", enableLeaderElection := true, probeAddr := ":8082",
    reconcileConcurrency := 1, watchNamespace := "", logFile := "",
    ray := { ForcedClusterUpgrade := false, EnableBatchScheduler := false } }

/-- Go `flag.Args()` once `flag.Parse()` has returned in `main` on the command
line `args`: the arguments it left unread. `none` when `main` does not get
past `flag.Parse()`. -/
def unread (pkg : ray.Package) (zapFlags : List k8szap.BoundFlag) (args : List String) :
    Option (List String) :=
  match defineFlags pkg zapFlags with
  | none => none
  | some (f, v) =>
    match f.Parse args v with
    | some (.ok f' _) => some f'.args
    | _ => none

/-- Reading of a boolean flag value, as an option. -/
def decBool (s : String) : Option Bool :=
  match strconv.ParseBool s with
  | .ok b => some b
  | .err _ => none

/-- Reading of an integer flag value, as an option. -/
def decInt (s : String) : Option Int :=
  match strconv.ParseInt s 0 strconv.IntSize with
  | .ok n => some n
  | .err _ => none

end operator

/-! ## Facts about `strings.Split` -/

namespace strings

theorem IndexByte_eq_none {s : List Char} {c : Char} : IndexByte s c = none ↔ c ∉ s := by
  induction s with
  | nil => simp [IndexByte]
  | cons x rest ih =>
    by_cases hx : x = c
    · simp [IndexByte, hx]
    · have hx' : ¬ c = x := fun h => hx h.symm
      simp [IndexByte, hx, hx', ih]

theorem Count_eq_zero {s : List Char} {c : Char} : Count s c = 0 ↔ c ∉ s := by
  induction s with
  | nil => simp [Count]
  | cons x rest ih =>
    by_cases hx : x = c
    · simp [Count, hx]
    · have hx' : ¬ c = x := fun h => hx h.symm
      simp [Count, hx, hx', ih]

/-- Where `IndexByte` finds the separator: nothing before it is a separator,
the string is the part before, the separator and the part after, and the part
after holds one separator less. -/
theorem IndexByte_some {c : Char} : ∀ {s : List Char} {m : Nat}, IndexByte s c = some m →
    c ∉ s.take m ∧ s = s.take m ++ c :: s.drop (m + 1) ∧
      Count s c = Count (s.drop (m + 1)) c + 1 := by
  intro s
  induction s with
  | nil => intro m h; simp [IndexByte] at h
  | cons x rest ih =>
    intro m h
    by_cases hx : x = c
    · simp [IndexByte, hx] at h
      subst h
      subst hx
      simp [Count]
      omega
    · simp only [IndexByte, hx, if_false, Option.map_eq_some'] at h
      obtain ⟨k, hk, rfl⟩ := h
      obtain ⟨h1, h2, h3⟩ := ih hk
      have hx' : ¬ c = x := fun h => hx h.symm
      refine ⟨?_, ?_, ?_⟩
      · simp [List.take_succ_cons, hx', h1]
      · simp only [List.take_succ_cons, List.drop_succ_cons, List.cons_append]
        rw [← h2]
      · simp only [Count, hx, if_false, List.drop_succ_cons]
        omega

theorem Join_cons (a : String) (l : List String) (sep : String) (hl : l ≠ []) :
    Join (a :: l) sep = a ++ sep ++ Join l sep := by
  cases l with
  | nil => exact absurd rfl hl
  | cons b rest => rfl

theorem genSplitLoop_ne_nil (c : Char) (n : Nat) (s : List Char) : genSplitLoop c n s ≠ [] := by
  cases n with
  | zero => simp [genSplitLoop]
  | succ n =>
    simp only [genSplitLoop]
    split <;> simp

theorem genSplitLoop_length (c : Char) : ∀ (n : Nat) (s : List Char), Count s c = n →
    (genSplitLoop c n s).length = n + 1 := by
  intro n
  induction n with
  | zero => intro s _; simp [genSplitLoop]
  | succ n ih =>
    intro s hs
    simp only [genSplitLoop]
    cases hm : IndexByte s c with
    | none =>
      have : Count s c = 0 := Count_eq_zero.mpr (IndexByte_eq_none.mp hm)
      omega
    | some m =>
      obtain ⟨_, _, h3⟩ := IndexByte_some hm
      simp only [List.length_cons]
      rw [ih (s.drop (m + 1)) (by omega)]

theorem genSplitLoop_join (c : Char) : ∀ (n : Nat) (s : List Char), Count s c = n →
    Join (genSplitLoop c n s) (String.mk [c]) = String.mk s := by
  intro n
  induction n with
  | zero => intro s _; simp [genSplitLoop, Join]
  | succ n ih =>
    intro s hs
    simp only [genSplitLoop]
    cases hm : IndexByte s c with
    | none => simp [Join]
    | some m =>
      obtain ⟨_, h2, h3⟩ := IndexByte_some hm
      simp only []
      rw [Join_cons _ _ _ (genSplitLoop_ne_nil c n _), ih (s.drop (m + 1)) (by omega)]
      apply String.ext
      simp only [String.data_append]
      rw [List.append_assoc]
      exact h2.symm

theorem genSplitLoop_clean (c : Char) : ∀ (n : Nat) (s : List Char), Count s c = n →
    ∀ seg ∈ genSplitLoop c n s, c ∉ seg.data := by
  intro n
  induction n with
  | zero =>
    intro s hs seg hseg
    simp only [genSplitLoop, List.mem_singleton] at hseg
    subst hseg
    exact Count_eq_zero.mp hs
  | succ n ih =>
    intro s hs seg hseg
    simp only [genSplitLoop] at hseg
    cases hm : IndexByte s c with
    | none =>
      have : Count s c = 0 := Count_eq_zero.mpr (IndexByte_eq_none.mp hm)
      omega
    | some m =>
      obtain ⟨h1, _, h3⟩ := IndexByte_some hm
      rw [hm] at hseg
      simp only [List.mem_cons] at hseg
      rcases hseg with rfl | hseg
      · exact h1
      · exact ih (s.drop (m + 1)) (by omega) seg hseg

theorem first_cut_unique {c : Char} : ∀ {x₁ x₂ z₁ z₂ : List Char}, c ∉ x₁ → c ∉ x₂ →
    x₁ ++ c :: z₁ = x₂ ++ c :: z₂ → x₁ = x₂ ∧ z₁ = z₂ := by
  intro x₁
  induction x₁ with
  | nil =>
    intro x₂ z₁ z₂ _ h2 h
    cases x₂ with
    | nil => simpa using h
    | cons y ys =>
      simp only [List.nil_append, List.cons_append, List.cons.injEq] at h
      exact absurd (h.1 ▸ List.mem_cons_self _ _) h2
  | cons a as ih =>
    intro x₂ z₁ z₂ h1 h2 h
    cases x₂ with
    | nil =>
      simp only [List.nil_append, List.cons_append, List.cons.injEq] at h
      exact absurd (h.1 ▸ List.mem_cons_self _ _) h1
    | cons y ys =>
      simp only [List.cons_append, List.cons.injEq] at h
      obtain ⟨h3, h4⟩ := ih (fun hm => h1 (List.mem_cons_of_mem _ hm))
        (fun hm => h2 (List.mem_cons_of_mem _ hm)) h.2
      exact ⟨by rw [h.1, h3], h4⟩

theorem Join_data_cons (a : String) (l : List String) (c : Char) (hl : l ≠ []) :
    (Join (a :: l) (String.mk [c])).data = a.data ++ c :: (Join l (String.mk [c])).data := by
  rw [Join_cons a l _ hl]
  simp [String.data_append]

/-- Only one non-empty list of separator-free strings joins to a given
string. -/
theorem Join_unique (c : Char) : ∀ (a b : List String), a ≠ [] → b ≠ [] →
    (∀ s ∈ a, c ∉ s.data) → (∀ s ∈ b, c ∉ s.data) →
    Join a (String.mk [c]) = Join b (String.mk [c]) → a = b := by
  intro a
  induction a with
  | nil => intro b ha; exact absurd rfl ha
  | cons x xs ih =>
    intro b _ hb hca hcb h
    cases b with
    | nil => exact absurd rfl hb
    | cons y ys =>
      have hx := hca x (List.mem_cons_self _ _)
      have hy := hcb y (List.mem_cons_self _ _)
      have hd := congrArg String.data h
      by_cases hxs : xs = []
      · by_cases hys : ys = []
        · subst hxs; subst hys
          simp only [Join] at h
          rw [h]
        · subst hxs
          rw [Join_data_cons y ys c hys] at hd
          simp only [Join] at hd
          exact absurd (hd ▸ List.mem_append_right _ (List.mem_cons_self _ _)) hx
      · by_cases hys : ys = []
        · subst hys
          rw [Join_data_cons x xs c hxs] at hd
          simp only [Join] at hd
          exact absurd (hd ▸ List.mem_append_right _ (List.mem_cons_self _ _)) hy
        · rw [Join_data_cons x xs c hxs, Join_data_cons y ys c hys] at hd
          obtain ⟨h1, h2⟩ := first_cut_unique hx hy hd
          have hxy : x = y := String.ext h1
          have := ih ys hxs hys (fun s hs => hca s (List.mem_cons_of_mem _ hs))
            (fun s hs => hcb s (List.mem_cons_of_mem _ hs)) (String.ext h2)
          rw [hxy, this]

theorem Split_length (s : String) (sep : Char) :
    (Split s sep).length = Count s.data sep + 1 :=
  genSplitLoop_length sep _ _ rfl

theorem Split_length_eq_one (s : String) (sep : Char) :
    (Split s sep).length = 1 ↔ sep ∉ s.data := by
  rw [Split_length, ← Count_eq_zero]
  omega

theorem Split_of_not_mem (s : String) (sep : Char) (h : sep ∉ s.data) : Split s sep = [s] := by
  have h0 : Count s.data sep = 0 := Count_eq_zero.mpr h
  simp [Split, h0, genSplitLoop]

end strings

/-! ## Facts about `flag.Parse` -/

namespace flag

variable {σ : Type}

theorem cutValue_none : ∀ {l : List Char}, (cutValue l).2 = none → (cutValue l).1 = l := by
  intro l
  induction l with
  | nil => intro _; rfl
  | cons c rest ih =>
    intro h
    by_cases hc : c = '='
    · simp [cutValue, hc] at h
    · simp only [cutValue, hc, if_false] at h ⊢
      rw [ih h]

theorem cutValue_some : ∀ {l value : List Char}, (cutValue l).2 = some value →
    l = (cutValue l).1 ++ '=' :: value := by
  intro l
  induction l with
  | nil => intro value h; simp [cutValue] at h
  | cons c rest ih =>
    intro value h
    by_cases hc : c = '='
    · simp only [cutValue, hc, if_true, Option.some.injEq] at h ⊢
      simp [h]
    · simp only [cutValue, hc, if_false] at h ⊢
      rw [List.cons_append, ← ih h]

theorem lookup_some {f : FlagSet σ} {name : String} {fl : Flag σ} (h : f.lookup name = some fl) :
    fl ∈ f.formal ∧ fl.Name = name := by
  unfold FlagSet.lookup at h
  exact ⟨List.mem_of_find?_eq_some h, by simpa using List.find?_some h⟩

theorem lookup_none {f : FlagSet σ} {name : String} (h : f.lookup name = none) :
    ∀ fl ∈ f.formal, fl.Name ≠ name := by
  unfold FlagSet.lookup at h
  intro fl hfl
  simpa using (List.find?_eq_none.mp h) fl hfl

/-- The text of a flag argument read back: one or two dashes, the name, and
the value after `=` when there is one. -/
theorem flagText {s : String} {c1 n0 : Char} {t nt : List Char}
    (hs : s.data = '-' :: c1 :: t) (hname : (if c1 = '-' then t else c1 :: t) = n0 :: nt) :
    (∀ value, (cutValue nt).2 = some value →
      s = "-" ++ String.mk (n0 :: (cutValue nt).1) ++ "=" ++ String.mk value ∨
      s = "--" ++ String.mk (n0 :: (cutValue nt).1) ++ "=" ++ String.mk value) ∧
    ((cutValue nt).2 = none →
      s = "-" ++ String.mk (n0 :: (cutValue nt).1) ∨
      s = "--" ++ String.mk (n0 :: (cutValue nt).1)) := by
  constructor
  · intro value hv
    have hnt := cutValue_some hv
    by_cases hc : c1 = '-'
    · right
      simp only [hc, if_true] at hname
      apply String.ext
      simp only [String.data_append, hs, hc, hname]
      generalize (cutValue nt).1 = pre at hnt ⊢
      rw [hnt]
      simp
    · left
      simp only [hc, if_false, List.cons.injEq] at hname
      apply String.ext
      simp only [String.data_append, hs, hname.1, hname.2]
      generalize (cutValue nt).1 = pre at hnt ⊢
      rw [hnt]
      simp
  · intro hv
    have hnt := cutValue_none hv
    by_cases hc : c1 = '-'
    · right
      simp only [hc, if_true] at hname
      apply String.ext
      simp only [String.data_append, hs, hc, hname, hnt]
      simp
    · left
      simp only [hc, if_false, List.cons.injEq] at hname
      apply String.ext
      simp only [String.data_append, hs, hname.1, hname.2, hnt]
      simp


theorem parseOne_seen {f f' : FlagSet σ} {v v' : σ} (h : f.parseOne v = .seen f' v') :
    ∃ s rest fl value, f.args = s :: rest ∧ f'.formal = f.formal ∧ fl ∈ f.formal ∧
      fl.Value.Set value v = some v' ∧
      ((f'.args = rest ∧
          (s = "-" ++ fl.Name ++ "=" ++ value ∨ s = "--" ++ fl.Name ++ "=" ++ value)) ∨
        (f'.args = rest ∧ fl.Value.IsBoolFlag = true ∧ value = "true" ∧
          (s = "-" ++ fl.Name ∨ s = "--" ++ fl.Name)) ∨
        (rest = value :: f'.args ∧ fl.Value.IsBoolFlag = false ∧
          (s = "-" ++ fl.Name ∨ s = "--" ++ fl.Name))) := by
  unfold FlagSet.parseOne at h
  split at h
  · simp at h
  · rename_i s rest hargs
    split at h
    · rename_i c0 c1 t hs
      split at h
      · simp at h
      · rename_i hc0
        split at h
        · simp at h
        · split at h
          · simp at h
          · rename_i n0 nt hname
            split at h
            · simp at h
            · simp only at h
              split at h
              · split at h <;> simp at h
              · rename_i fl hfl
                have hc0' : c0 = '-' := by simpa using hc0
                subst hc0'
                obtain ⟨hmem, hnm⟩ := lookup_some hfl
                obtain ⟨htv, htn⟩ := flagText hs hname
                rw [← hnm] at htv htn
                split at h
                · rename_i hb
                  split at h
                  · rename_i value hval
                    split at h
                    · simp at h
                    · rename_i w hset
                      simp only [Step.seen.injEq] at h
                      obtain ⟨rfl, rfl⟩ := h
                      exact ⟨s, rest, fl, String.mk value, hargs, rfl, hmem, hset,
                        Or.inl ⟨rfl, htv value hval⟩⟩
                  · rename_i hval
                    split at h
                    · simp at h
                    · rename_i w hset
                      simp only [Step.seen.injEq] at h
                      obtain ⟨rfl, rfl⟩ := h
                      exact ⟨s, rest, fl, "true", hargs, rfl, hmem, hset,
                        Or.inr (Or.inl ⟨rfl, hb, rfl, htn hval⟩)⟩
                · rename_i hb
                  have hb' : fl.Value.IsBoolFlag = false := by simpa using hb
                  split at h
                  · rename_i value hval
                    split at h
                    · simp at h
                    · rename_i w hset
                      simp only [Step.seen.injEq] at h
                      obtain ⟨rfl, rfl⟩ := h
                      exact ⟨_, _, fl, String.mk value, hargs, rfl, hmem, hset,
                        Or.inl ⟨rfl, htv value hval⟩⟩
                  · rename_i value rest' hval
                    split at h
                    · simp at h
                    · rename_i w hset
                      simp only [Step.seen.injEq] at h
                      obtain ⟨rfl, rfl⟩ := h
                      exact ⟨_, _, fl, value, hargs, rfl, hmem, hset,
                        Or.inr (Or.inr ⟨rfl, hb', htn hval⟩)⟩
                  · simp at h
    · simp at h

theorem parseOne_stop {f f' : FlagSet σ} {v v' : σ} (h : f.parseOne v = .stop f' v') :
    v' = v := by
  unfold FlagSet.parseOne at h
  split at h
  · simp only [Step.stop.injEq] at h; exact h.2.symm
  · split at h
    · split at h
      · simp only [Step.stop.injEq] at h; exact h.2.symm
      · split at h
        · simp only [Step.stop.injEq] at h; exact h.2.symm
        · split at h
          · simp at h
          · split at h
            · simp at h
            · simp only at h
              split at h
              · split at h <;> simp at h
              · split at h
                · split at h <;> split at h <;> simp at h
                · split at h
                  · split at h <;> simp at h
                  · split at h <;> simp at h
                  · simp at h
    · simp only [Step.stop.injEq] at h; exact h.2.symm


theorem Consumes.length_lt {fl : Flag σ} {value s : String} {rest rest' : List String}
    (h : Consumes fl value s rest rest') : rest'.length < (s :: rest).length := by
  rcases h with ⟨rfl, _⟩ | ⟨rfl, _⟩ | ⟨rfl, _⟩
  · simp
  · simp
  · simp only [List.length_cons]; omega

theorem parseOne_consumes {f f' : FlagSet σ} {v v' : σ} (h : f.parseOne v = .seen f' v') :
    ∃ s rest fl value, f.args = s :: rest ∧ f'.formal = f.formal ∧ fl ∈ f.formal ∧
      fl.Value.Set value v = some v' ∧ Consumes fl value s rest f'.args :=
  parseOne_seen h

/-- The parse loop ends within `fuel` iterations when `fuel` exceeds the number
of arguments left. -/
theorem parseLoop_isSome : ∀ (fuel : Nat) (f : FlagSet σ) (v : σ), f.args.length < fuel →
    (FlagSet.parseLoop fuel f v).isSome = true := by
  intro fuel
  induction fuel with
  | zero => intro f v h; omega
  | succ fuel ih =>
    intro f v h
    simp only [FlagSet.parseLoop]
    cases hp : f.parseOne v with
    | stop f' v' => rfl
    | fail e => rfl
    | seen f' v' =>
      obtain ⟨s, rest, fl, value, hargs, _, _, _, hc⟩ := parseOne_consumes hp
      have := hc.length_lt
      rw [hargs] at h
      exact ih f' v' (by omega)

/-- `Parse` always ends: the bound on the loop is never what stops it. -/
theorem Parse_terminates (f : FlagSet σ) (arguments : List String) (v : σ) :
    f.Parse arguments v ≠ none := by
  have h := parseLoop_isSome (arguments.length + 1) { f with args := arguments } v
    (Nat.lt_succ_self _)
  intro hn
  unfold FlagSet.Parse at hn
  rw [hn] at h
  exact absurd h (by simp)

theorem parseLoop_induct {P : FlagSet σ → σ → Prop}
    (hstep : ∀ f v f' v', P f v → f.parseOne v = .seen f' v' → P f' v') :
    ∀ (fuel : Nat) (f : FlagSet σ) (v : σ) (f' : FlagSet σ) (v' : σ),
      P f v → FlagSet.parseLoop fuel f v = some (.ok f' v') → ∃ g, P g v' := by
  intro fuel
  induction fuel with
  | zero => intro f v f' v' _ h; simp [FlagSet.parseLoop] at h
  | succ fuel ih =>
    intro f v f' v' hP h
    simp only [FlagSet.parseLoop] at h
    cases hp : f.parseOne v with
    | stop g w =>
      rw [hp] at h
      simp only [Option.some.injEq, Parsed.ok.injEq] at h
      obtain ⟨_, rfl⟩ := h
      rw [parseOne_stop hp]
      exact ⟨f, hP⟩
    | fail e => rw [hp] at h; simp at h
    | seen g w =>
      rw [hp] at h
      exact ih g w f' v' (hstep f v g w hP hp) h

/-- Induction over a successful `Parse`: a property of the variables that
holds at the start and survives every flag taken off the command line holds at
the end. -/
theorem Parse_induct {P : σ → Prop} {f f' : FlagSet σ} {arguments : List String} {v v' : σ}
    (hv : P v)
    (hstep : ∀ pre s rest rest' fl value w w', arguments = pre ++ s :: rest →
      fl ∈ f.formal → fl.Value.Set value w = some w' → Consumes fl value s rest rest' → P w → P w')
    (h : f.Parse arguments v = some (.ok f' v')) : P v' := by
  have key := parseLoop_induct
    (P := fun g w => g.formal = f.formal ∧ (∃ pre, arguments = pre ++ g.args) ∧ P w)
    (by
      intro g w g' w' ⟨hform, ⟨pre, hpre⟩, hw⟩ hp
      obtain ⟨s, rest, fl, value, hargs, hform', hmem, hset, hc⟩ := parseOne_consumes hp
      refine ⟨hform'.trans hform, ?_, ?_⟩
      · rcases hc with ⟨h1, _⟩ | ⟨h1, _⟩ | ⟨h1, _⟩
        · exact ⟨pre ++ [s], by rw [hpre, hargs, h1]; simp⟩
        · exact ⟨pre ++ [s], by rw [hpre, hargs, h1]; simp⟩
        · exact ⟨pre ++ [s, value], by rw [hpre, hargs, h1]; simp⟩
      · exact hstep pre s rest g'.args fl value w w' (by rw [hpre, hargs]) (hform ▸ hmem)
          hset hc hw)
    (arguments.length + 1) { f with args := arguments } v f' v' ⟨rfl, ⟨[], rfl⟩, hv⟩ h
  exact key.choose_spec.2.2


theorem passes_of_mem {args : List String} {name s : String} (hs : s ∈ args)
    (h : (s = "-" ++ name ∨ s = "--" ++ name) ∨
      ∃ value, s = "-" ++ name ++ "=" ++ value ∨ s = "--" ++ name ++ "=" ++ value) :
    passes args name = true := by
  unfold passes
  rw [List.any_eq_true]
  refine ⟨s, hs, ?_⟩
  simp only [Bool.or_eq_true, beq_iff_eq, List.isPrefixOf_iff_prefix]
  rcases h with (h | h) | ⟨value, h | h⟩
  · exact Or.inl (Or.inl (Or.inl h))
  · exact Or.inl (Or.inl (Or.inr h))
  · refine Or.inl (Or.inr ?_)
    rw [h, String.data_append]
    exact List.prefix_append _ _
  · refine Or.inr ?_
    rw [h, String.data_append]
    exact List.prefix_append _ _

theorem Consumes.passes {fl : Flag σ} {value s : String} {rest rest' args : List String}
    (h : Consumes fl value s rest rest') (hs : s ∈ args) : passes args fl.Name = true := by
  apply passes_of_mem hs
  rcases h with ⟨_, h⟩ | ⟨_, _, _, h⟩ | ⟨_, _, h⟩
  · exact Or.inr ⟨value, h⟩
  · exact Or.inl h
  · exact Or.inl h

/-- A flag the command line does not pass keeps the value it had before
`Parse`. -/
theorem Parse_not_passed {α : Type} {f f' : FlagSet σ} {arguments : List String} {v v' : σ}
    {name : String} {isBool : Bool} {dec : String → Option α} {get : σ → α}
    (hb : Binds f.formal name isBool dec get) (hn : passes arguments name = false)
    (h : f.Parse arguments v = some (.ok f' v')) : get v' = get v := by
  refine Parse_induct (P := fun w => get w = get v) rfl ?_ h
  intro pre s rest rest' fl value w w' hargs hmem hset hc hw
  have hne : fl.Name ≠ name := by
    intro heq
    have : passes arguments fl.Name = true := hc.passes (by rw [hargs]; simp)
    rw [heq, hn] at this
    exact absurd this (by simp)
  rw [hb.other fl hmem hne value w w' hset, hw]

/-- After `Parse`, a bound component either still has the value it had before,
or holds what `dec` reads from a value the command line gives to the flag
(for a boolean flag, `"true"` when the flag stands alone). -/
theorem Parse_bound {α : Type} {f f' : FlagSet σ} {arguments : List String} {v v' : σ}
    {name : String} {isBool : Bool} {dec : String → Option α} {get : σ → α}
    (hb : Binds f.formal name isBool dec get)
    (h : f.Parse arguments v = some (.ok f' v')) :
    get v' = get v ∨ ∃ value, dec value = some (get v') ∧
      (gives arguments name value ∨
        (isBool = true ∧ value = "true" ∧
          ∃ arg ∈ arguments, arg = "-" ++ name ∨ arg = "--" ++ name)) := by
  refine Parse_induct
    (P := fun w => get w = get v ∨ ∃ value, dec value = some (get w) ∧
      (gives arguments name value ∨
        (isBool = true ∧ value = "true" ∧
          ∃ arg ∈ arguments, arg = "-" ++ name ∨ arg = "--" ++ name)))
    (Or.inl rfl) ?_ h
  intro pre s rest rest' fl value w w' hargs hmem hset hc hw
  have hs : s ∈ arguments := by rw [hargs]; simp
  by_cases heq : fl.Name = name
  · obtain ⟨hbool, hdec⟩ := hb.own fl hmem heq
    refine Or.inr ⟨value, hdec value w w' hset, ?_⟩
    unfold Consumes at hc
    rw [heq] at hc
    rcases hc with ⟨_, hform⟩ | ⟨_, hbf, hval, hform⟩ | ⟨hrest, _, hform⟩
    · exact Or.inl (Or.inl ⟨s, hs, hform⟩)
    · exact Or.inr ⟨hbool ▸ hbf, hval, s, hs, hform⟩
    · exact Or.inl (Or.inr ⟨pre, s, rest', by rw [hargs, hrest], hform⟩)
  · rw [hb.other fl hmem heq value w w' hset]
    exact hw

/-- A flag that `parseOne` takes off the arguments is taken off in the same
way when more arguments follow. -/
theorem parseOne_seen_append {f g : FlagSet σ} {v w : σ} (post : List String)
    (h : f.parseOne v = .seen g w) :
    FlagSet.parseOne { f with args := f.args ++ post } v =
      .seen { g with args := g.args ++ post } w := by
  unfold FlagSet.parseOne at h
  split at h
  · simp at h
  · rename_i s rest hargs
    split at h
    · rename_i c0 c1 t hs
      split at h
      · simp at h
      · rename_i hc0
        split at h
        · simp at h
        · rename_i hterm
          split at h
          · simp at h
          · rename_i n0 nt hname
            split at h
            · simp at h
            · rename_i hbad
              simp only at h
              split at h
              · split at h <;> simp at h
              · rename_i fl hfl
                unfold FlagSet.lookup at hfl
                unfold FlagSet.parseOne
                simp only [hargs, List.cons_append, hs, hc0, hterm, hname, hbad, if_false,
                  FlagSet.lookup, hfl]
                have fin : ∀ (a : List String) (u : σ),
                    Step.seen { formal := f.formal, args := a } u = Step.seen g w →
                    Step.seen { formal := f.formal, args := a ++ post } u =
                      Step.seen { formal := g.formal, args := g.args ++ post } w := by
                  intro a u hu
                  simp only [Step.seen.injEq] at hu
                  obtain ⟨rfl, rfl⟩ := hu
                  rfl
                by_cases hb : fl.Value.IsBoolFlag = true
                · simp only [hb, if_true] at h ⊢
                  cases hv : (cutValue nt).2 with
                  | some value =>
                    simp only [hv] at h ⊢
                    cases hset : fl.Value.Set (String.mk value) v with
                    | none => simp [hset] at h
                    | some u =>
                      simp only [hset] at h ⊢
                      exact fin _ _ h
                  | none =>
                    simp only [hv] at h ⊢
                    cases hset : fl.Value.Set "true" v with
                    | none => simp [hset] at h
                    | some u =>
                      simp only [hset] at h ⊢
                      exact fin _ _ h
                · simp only [hb, if_false] at h ⊢
                  cases hv : (cutValue nt).2 with
                  | some value =>
                    simp only [hv] at h ⊢
                    cases hset : fl.Value.Set (String.mk value) v with
                    | none => simp [hset] at h
                    | some u =>
                      simp only [hset] at h ⊢
                      exact fin _ _ h
                  | none =>
                    cases rest with
                    | nil => simp [hv] at h
                    | cons value rest' =>
                      simp only [hv, List.cons_append] at h ⊢
                      cases hset : fl.Value.Set value v with
                      | none => simp [hset] at h
                      | some u =>
                        simp only [hset] at h ⊢
                        exact fin _ _ h
    · simp at h

/-- When `parseOne` stops with no argument left, there was none to begin with
or the first was the terminator `--`. -/
theorem parseOne_stop_nil {f g : FlagSet σ} {v w : σ} (h : f.parseOne v = .stop g w)
    (hg : g.args = []) : f.args = [] ∨ "--" ∈ f.args := by
  unfold FlagSet.parseOne at h
  split at h
  · rename_i hargs
    exact Or.inl hargs
  · rename_i s rest hargs
    have hne : ∀ u, Step.stop f u = Step.stop g w → False := by
      intro u hu
      simp only [Step.stop.injEq] at hu
      rw [← hu.1, hargs] at hg
      simp at hg
    split at h
    · rename_i c0 c1 t hs
      split at h
      · exact (hne _ h).elim
      · rename_i hc0
        split at h
        · rename_i hterm
          right
          have hc0' : c0 = '-' := by simpa using hc0
          have : s = "--" := by
            apply String.ext
            rw [hs, hc0', hterm.1, hterm.2]
          rw [hargs, this]
          exact List.mem_cons_self _ _
        · split at h
          · simp at h
          · split at h
            · simp at h
            · simp only at h
              split at h
              · split at h <;> simp at h
              · split at h
                · split at h <;> split at h <;> simp at h
                · split at h
                  · split at h <;> simp at h
                  · split at h <;> simp at h
                  · simp at h
    · exact (hne _ h).elim

/-- More fuel does not change how the parse loop ends. -/
theorem parseLoop_mono : ∀ (fuel : Nat) (f : FlagSet σ) (v : σ) (x : Parsed σ),
    FlagSet.parseLoop fuel f v = some x → FlagSet.parseLoop (fuel + 1) f v = some x := by
  intro fuel
  induction fuel with
  | zero => intro f v x h; simp [FlagSet.parseLoop] at h
  | succ fuel ih =>
    intro f v x h
    rw [FlagSet.parseLoop] at h ⊢
    cases hp : f.parseOne v with
    | stop g w => rw [hp] at h; exact h
    | fail e => rw [hp] at h; exact h
    | seen g w =>
      rw [hp] at h
      simp only at h ⊢
      exact ih g w x h

theorem parseLoop_mono_add (k : Nat) : ∀ (fuel : Nat) (f : FlagSet σ) (v : σ) (x : Parsed σ),
    FlagSet.parseLoop fuel f v = some x → FlagSet.parseLoop (fuel + k) f v = some x := by
  induction k with
  | zero => intro fuel f v x h; exact h
  | succ k ih =>
    intro fuel f v x h
    exact parseLoop_mono (fuel + k) f v x (ih fuel f v x h)

/-- With enough fuel for the arguments, any larger fuel gives the same end. -/
theorem parseLoop_enough (f : FlagSet σ) (v : σ) (a b : Nat) (ha : f.args.length < a)
    (hab : a ≤ b) : FlagSet.parseLoop b f v = FlagSet.parseLoop a f v := by
  have hs := parseLoop_isSome a f v ha
  cases hx : FlagSet.parseLoop a f v with
  | none => rw [hx] at hs; simp at hs
  | some x =>
    obtain ⟨k, rfl⟩ := Nat.exists_eq_add_of_le hab
    exact parseLoop_mono_add k a f v x hx

theorem parseLoop_append (post : List String) : ∀ (n : Nat) (f : FlagSet σ) (v : σ)
    (f1 : FlagSet σ) (v1 : σ), FlagSet.parseLoop n f v = some (.ok f1 v1) → f1.args = [] →
    "--" ∉ f.args → ∀ m, post.length ≤ m →
      FlagSet.parseLoop (n + m) { f with args := f.args ++ post } v =
        FlagSet.parseLoop (m + 1) { f with args := post } v1 := by
  intro n
  induction n with
  | zero => intro f v f1 v1 h; simp [FlagSet.parseLoop] at h
  | succ n ih =>
    intro f v f1 v1 h hf1 hterm m hm
    rw [FlagSet.parseLoop] at h
    cases hp : f.parseOne v with
    | fail e => rw [hp] at h; simp at h
    | stop g w =>
      rw [hp] at h
      simp only [Option.some.injEq, Parsed.ok.injEq] at h
      obtain ⟨rfl, rfl⟩ := h
      have hw := parseOne_stop hp
      subst hw
      rcases parseOne_stop_nil hp hf1 with hnil | hmem
      · rw [hnil, List.nil_append]
        exact parseLoop_enough _ _ _ _ (Nat.lt_succ_of_le hm) (by omega)
      · exact absurd hmem hterm
    | seen g w =>
      rw [hp] at h
      simp only at h
      obtain ⟨s, rest, fl, value, hargs, hform, _, _, hc⟩ := parseOne_consumes hp
      have hterm' : "--" ∉ g.args := by
        intro hmem
        apply hterm
        rw [hargs]
        rcases hc with ⟨h1, _⟩ | ⟨h1, _⟩ | ⟨h1, _⟩
        · rw [h1] at hmem; exact List.mem_cons_of_mem _ hmem
        · rw [h1] at hmem; exact List.mem_cons_of_mem _ hmem
        · rw [h1]; exact List.mem_cons_of_mem _ (List.mem_cons_of_mem _ hmem)
      have hstep := parseOne_seen_append post hp
      have ih' := ih g w f1 v1 h hf1 hterm' m hm
      have hfuel : n + 1 + m = (n + m) + 1 := by omega
      rw [hfuel, FlagSet.parseLoop, hstep]
      simp only
      rw [ih']
      have : ({ g with args := post } : FlagSet σ) = { f with args := post } := by
        rw [hform]
      rw [this]

/-- When `Parse` reads all of `pre` (none of it is left, and the terminator
`--` is not in it), parsing `pre` followed by `post` is parsing `post` from
where `pre` leaves the variables. -/
theorem Parse_append {f f1 : FlagSet σ} {pre : List String} {v v1 : σ} (post : List String)
    (h : f.Parse pre v = some (.ok f1 v1)) (hf1 : f1.args = []) (hterm : "--" ∉ pre) :
    f.Parse (pre ++ post) v = f.Parse post v1 := by
  unfold FlagSet.Parse at h ⊢
  have key := parseLoop_append post (pre.length + 1) { f with args := pre } v f1 v1 h hf1 hterm
    post.length (Nat.le_refl _)
  have hfuel : (pre ++ post).length + 1 = pre.length + 1 + post.length := by
    rw [List.length_append]; omega
  rw [hfuel]
  exact key

end flag

/-! ## Facts about `main` -/

namespace operator

theorem defineFlags_eq (pkg : ray.Package) (zapFlags : List k8szap.BoundFlag) :
    defineFlags pkg zapFlags =
      (BindFlags zapFlags { formal := mainFlags, args := [] }).bind
        (fun f => some (f, defaults)) := rfl


theorem BindFlags_some : ∀ (zapFlags : List k8szap.BoundFlag) (f f' : flag.FlagSet Vars),
    BindFlags zapFlags f = some f' →
      f'.formal = f.formal ++ zapFlags.map zapFlag ∧
        ∀ b ∈ zapFlags, ∀ fl ∈ f.formal, fl.Name ≠ b.Name := by
  intro zapFlags
  induction zapFlags with
  | nil =>
    intro f f' h
    simp only [BindFlags, List.foldlM_nil, pure, Option.some.injEq] at h
    subst h
    simp
  | cons b rest ih =>
    intro f f' h
    simp only [BindFlags, List.foldlM_cons, bind, Option.bind_eq_some] at h
    obtain ⟨g, hg, hrest⟩ := h
    unfold flag.FlagSet.Var at hg
    cases hl : f.lookup b.Name with
    | some _ => rw [hl] at hg; simp at hg
    | none =>
      rw [hl] at hg
      simp only [Option.some.injEq] at hg
      subst hg
      obtain ⟨h1, h2⟩ := ih _ f' hrest
      refine ⟨by simp [h1, zapFlag], ?_⟩
      intro b' hb' fl hfl
      rcases List.mem_cons.mp hb' with rfl | hb'
      · exact flag.lookup_none hl fl hfl
      · exact h2 b' hb' fl (by simp [hfl])

/-- What `parseFlags` returning variables means: the zap flags were defined
after the nine of `main` without a clash, and `Parse` ran over them starting
from `defaults`. -/
theorem parseFlags_ok {pkg : ray.Package} {zapFlags : List k8szap.BoundFlag}
    {args : List String} {v : Vars} (h : parseFlags pkg zapFlags args = .ok v) :
    ∃ f f' : flag.FlagSet Vars, f.formal = mainFlags ++ zapFlags.map zapFlag ∧
      (∀ b ∈ zapFlags, ∀ fl ∈ mainFlags, fl.Name ≠ b.Name) ∧
      f.Parse args defaults = some (.ok f' v) := by
  unfold parseFlags at h
  rw [defineFlags_eq] at h
  cases hb : BindFlags zapFlags { formal := mainFlags, args := [] } with
  | none => rw [hb] at h; simp at h
  | some f =>
    rw [hb] at h
    simp only [Option.bind] at h
    obtain ⟨h1, h2⟩ := BindFlags_some _ _ _ hb
    cases hp : f.Parse args defaults with
    | none => rw [hp] at h; simp at h
    | some p =>
      rw [hp] at h
      cases p with
      | error e => simp at h
      | ok f' w =>
        simp only [Outcome.ok.injEq] at h
        subst h
        exact ⟨f, f', h1, h2, hp⟩

/-- What `main` reaching the manager set-up means. -/
theorem main_ok {pkg : ray.Package} {zapFlags : List k8szap.BoundFlag}
    {args : List String} {r : Run} (h : main pkg zapFlags args = .ok r) :
    parseFlags pkg zapFlags args = .ok r.vars ∧ r.vars.version = false ∧
      managerOptions r.vars = some r.options ∧
      r.reconcileConcurrency = r.vars.reconcileConcurrency := by
  unfold main at h
  cases hp : parseFlags pkg zapFlags args with
  | panic => rw [hp] at h; simp at h
  | exit code => rw [hp] at h; simp at h
  | unfinished => rw [hp] at h; simp at h
  | ok v =>
    rw [hp] at h
    simp only at h
    by_cases hv : v.version = true
    · simp [hv] at h
    · rw [if_neg hv] at h
      cases ho : managerOptions v with
      | none => rw [ho] at h; simp at h
      | some options =>
        rw [ho] at h
        simp only [Outcome.ok.injEq] at h
        subst h
        exact ⟨rfl, by simpa using hv, ho, rfl⟩

theorem parseFlags_finishes (pkg : ray.Package) (zapFlags : List k8szap.BoundFlag)
    (args : List String) : parseFlags pkg zapFlags args ≠ .unfinished := by
  unfold parseFlags
  cases defineFlags pkg zapFlags with
  | none => simp
  | some c =>
    obtain ⟨f, v⟩ := c
    simp only
    cases hp : f.Parse args v with
    | none => exact absurd hp (flag.Parse_terminates f args v)
    | some p => cases p <;> simp

/-- The bound on the parse loop never decides how `main` proceeds. -/
theorem main_finishes (pkg : ray.Package) (zapFlags : List k8szap.BoundFlag)
    (args : List String) : main pkg zapFlags args ≠ .unfinished := by
  unfold main
  cases hp : parseFlags pkg zapFlags args with
  | panic => simp
  | exit code => simp
  | unfinished => exact absurd hp (parseFlags_finishes pkg zapFlags args)
  | ok v =>
    simp only
    split
    · simp
    · split <;> simp

/-- A binding that holds among the nine flags of `main` holds in the whole
flag set: no zap flag shares a name with one of the nine, and the `Set` of a
zap flag writes none of the variables. -/
theorem binds_all {α : Type} {zapFlags : List k8szap.BoundFlag} {name : String}
    {isBool : Bool} {dec : String → Option α} {get : Vars → α}
    (hmain : flag.Binds mainFlags name isBool dec get)
    (hname : (mainFlags.any fun fl => fl.Name == name) = true)
    (hclash : ∀ b ∈ zapFlags, ∀ fl ∈ mainFlags, fl.Name ≠ b.Name) :
    flag.Binds (mainFlags ++ zapFlags.map zapFlag) name isBool dec get := by
  obtain ⟨fl0, hfl0, hn0⟩ := List.any_eq_true.mp hname
  replace hn0 : fl0.Name = name := by simpa using hn0
  constructor
  · intro fl hfl hnm
    rcases List.mem_append.mp hfl with hfl | hfl
    · exact hmain.own fl hfl hnm
    · obtain ⟨b, hb, rfl⟩ := List.mem_map.mp hfl
      exact absurd (hn0.trans hnm.symm) (hclash b hb fl0 hfl0)
  · intro fl hfl hnm s v v' hset
    rcases List.mem_append.mp hfl with hfl | hfl
    · exact hmain.other fl hfl hnm s v v' hset
    · obtain ⟨b, hb, rfl⟩ := List.mem_map.mp hfl
      simp only [zapFlag, zapValue] at hset
      split at hset
      · simp only [Option.some.injEq] at hset
        rw [hset]
      · simp at hset


theorem binds_forcedClusterUpgrade :
    flag.Binds mainFlags "forced-cluster-upgrade" true decBool
      (fun v => v.ray.ForcedClusterUpgrade) := by
  constructor
  · intro fl hfl hnm
    simp only [mainFlags, List.mem_cons, List.mem_singleton, List.not_mem_nil, or_false] at hfl
    rcases hfl with rfl | rfl | rfl | rfl | rfl | rfl | rfl | rfl | rfl
    all_goals first
      | exact absurd hnm (by decide)
      | (refine ⟨rfl, ?_⟩
         intro s v v' hset
         simp only [flag.newBoolValue, flag.newIntValue] at hset
         unfold decBool
         split at hset
         · simp only [Option.some.injEq] at hset
           subst hset
           simp [*]
         · simp at hset)
  · intro fl hfl hnm s v v' hset
    simp only [mainFlags, List.mem_cons, List.mem_singleton, List.not_mem_nil, or_false] at hfl
    rcases hfl with rfl | rfl | rfl | rfl | rfl | rfl | rfl | rfl | rfl
    all_goals first
      | exact absurd rfl hnm
      | (simp only [flag.newBoolValue, flag.newIntValue, flag.newStringValue] at hset
         split at hset
         · simp only [Option.some.injEq] at hset
           subst hset
           rfl
         · simp at hset)
      | (simp only [flag.newStringValue, Option.some.injEq] at hset
         subst hset
         rfl)

theorem binds_enableBatchScheduler :
    flag.Binds mainFlags "enable-batch-scheduler" true decBool
      (fun v => v.ray.EnableBatchScheduler) := by
  constructor
  · intro fl hfl hnm
    simp only [mainFlags, List.mem_cons, List.mem_singleton, List.not_mem_nil, or_false] at hfl
    rcases hfl with rfl | rfl | rfl | rfl | rfl | rfl | rfl | rfl | rfl
    all_goals first
      | exact absurd hnm (by decide)
      | (refine ⟨rfl, ?_⟩
         intro s v v' hset
         simp only [flag.newBoolValue, flag.newIntValue] at hset
         unfold decBool
         split at hset
         · simp only [Option.some.injEq] at hset
           subst hset
           simp [*]
         · simp at hset)
  · intro fl hfl hnm s v v' hset
    simp only [mainFlags, List.mem_cons, List.mem_singleton, List.not_mem_nil, or_false] at hfl
    rcases hfl with rfl | rfl | rfl | rfl | rfl | rfl | rfl | rfl | rfl
    all_goals first
      | exact absurd rfl hnm
      | (simp only [flag.newBoolValue, flag.newIntValue, flag.newStringValue] at hset
         split at hset
         · simp only [Option.some.injEq] at hset
           subst hset
           rfl
         · simp at hset)
      | (simp only [flag.newStringValue, Option.some.injEq] at hset
         subst hset
         rfl)

theorem binds_reconcileConcurrency :
    flag.Binds mainFlags "reconcile-concurrency" false decInt
      (fun v => v.reconcileConcurrency) := by
  constructor
  · intro fl hfl hnm
    simp only [mainFlags, List.mem_cons, List.mem_singleton, List.not_mem_nil, or_false] at hfl
    rcases hfl with rfl | rfl | rfl | rfl | rfl | rfl | rfl | rfl | rfl
    all_goals first
      | exact absurd hnm (by decide)
      | (refine ⟨rfl, ?_⟩
         intro s v v' hset
         simp only [flag.newBoolValue, flag.newIntValue] at hset
         unfold decInt
         split at hset
         · simp only [Option.some.injEq] at hset
           subst hset
           simp [*]
         · simp at hset)
  · intro fl hfl hnm s v v' hset
    simp only [mainFlags, List.mem_cons, List.mem_singleton, List.not_mem_nil, or_false] at hfl
    rcases hfl with rfl | rfl | rfl | rfl | rfl | rfl | rfl | rfl | rfl
    all_goals first
      | exact absurd rfl hnm
      | (simp only [flag.newBoolValue, flag.newIntValue, flag.newStringValue] at hset
         split at hset
         · simp only [Option.some.injEq] at hset
           subst hset
           rfl
         · simp at hset)
      | (simp only [flag.newStringValue, Option.some.injEq] at hset
         subst hset
         rfl)

theorem binds_watchNamespace :
    flag.Binds mainFlags "watch-namespace" false some (fun v => v.watchNamespace) := by
  constructor
  · intro fl hfl hnm
    simp only [mainFlags, List.mem_cons, List.mem_singleton, List.not_mem_nil, or_false] at hfl
    rcases hfl with rfl | rfl | rfl | rfl | rfl | rfl | rfl | rfl | rfl
    all_goals first
      | exact absurd hnm (by decide)
      | (refine ⟨rfl, ?_⟩
         intro s v v' hset
         simp only [flag.newStringValue, Option.some.injEq] at hset
         subst hset
         rfl)
  · intro fl hfl hnm s v v' hset
    simp only [mainFlags, List.mem_cons, List.mem_singleton, List.not_mem_nil, or_false] at hfl
    rcases hfl with rfl | rfl | rfl | rfl | rfl | rfl | rfl | rfl | rfl
    all_goals first
      | exact absurd rfl hnm
      | (simp only [flag.newBoolValue, flag.newIntValue, flag.newStringValue] at hset
         split at hset
         · simp only [Option.some.injEq] at hset
           subst hset
           rfl
         · simp at hset)
      | (simp only [flag.newStringValue, Option.some.injEq] at hset
         subst hset
         rfl)


theorem parseFlags_not_passed {α : Type} {pkg : ray.Package}
    {zapFlags : List k8szap.BoundFlag} {args : List String} {v : Vars} {name : String}
    {isBool : Bool} {dec : String → Option α} {get : Vars → α}
    (hmain : flag.Binds mainFlags name isBool dec get)
    (hname : (mainFlags.any fun fl => fl.Name == name) = true)
    (h : parseFlags pkg zapFlags args = .ok v) (hn : flag.passes args name = false) :
    get v = get defaults := by
  obtain ⟨f, f', hform, hclash, hp⟩ := parseFlags_ok h
  exact flag.Parse_not_passed (hform ▸ binds_all hmain hname hclash) hn hp

theorem parseFlags_bound {α : Type} {pkg : ray.Package}
    {zapFlags : List k8szap.BoundFlag} {args : List String} {v : Vars} {name : String}
    {isBool : Bool} {dec : String → Option α} {get : Vars → α}
    (hmain : flag.Binds mainFlags name isBool dec get)
    (hname : (mainFlags.any fun fl => fl.Name == name) = true)
    (h : parseFlags pkg zapFlags args = .ok v) :
    get v = get defaults ∨ ∃ value, dec value = some (get v) ∧
      (flag.gives args name value ∨
        (isBool = true ∧ value = "true" ∧
          ∃ arg ∈ args, arg = "-" ++ name ∨ arg = "--" ++ name)) := by
  obtain ⟨f, f', hform, hclash, hp⟩ := parseFlags_ok h
  exact flag.Parse_bound (hform ▸ binds_all hmain hname hclash) hp

/-- After `flag.Parse`, a boolean variable whose flag defaults to false is
false when the command line does not pass the flag, and true only when the
command line gives the flag as true. -/
theorem bool_flag_default_false {pkg : ray.Package} {zapFlags : List k8szap.BoundFlag}
    {args : List String} {v : Vars} {name : String} {get : Vars → Bool}
    (hmain : flag.Binds mainFlags name true decBool get)
    (hname : (mainFlags.any fun fl => fl.Name == name) = true) (hdef : get defaults = false)
    (h : parseFlags pkg zapFlags args = .ok v) :
    (flag.passes args name = false → get v = false) ∧
      (get v = true → flag.givesTrue args name) := by
  constructor
  · intro hn
    rw [parseFlags_not_passed hmain hname h hn, hdef]
  · intro ht
    rcases parseFlags_bound hmain hname h with h0 | ⟨value, hdec, hg⟩
    · rw [h0, hdef] at ht
      exact absurd ht (by simp)
    · have hpb : strconv.ParseBool value = .ok true := by
        unfold decBool at hdec
        split at hdec
        · rename_i b hb
          simp only [Option.some.injEq] at hdec
          rw [hb, hdec, ht]
        · simp at hdec
      rcases hg with (⟨arg, harg, hform⟩ | ⟨pre, arg, post, hargs, hform⟩) | ⟨_, _, arg, harg, hform⟩
      · exact ⟨arg, harg, Or.inr ⟨value, hpb, hform⟩⟩
      · exact ⟨arg, by rw [hargs]; simp, Or.inl hform⟩
      · exact ⟨arg, harg, Or.inl hform⟩


theorem ParseInt_range {s : String} {n : Int}
    (h : strconv.ParseInt s 0 strconv.IntSize = .ok n) : -(2 ^ 63) ≤ n ∧ n < 2 ^ 63 := by
  unfold strconv.ParseInt at h
  split at h
  · simp at h
  · simp only at h
    split at h
    · simp at h
    · simp only [strconv.IntSize] at h
      have key : ∀ (c : Prop) [Decidable c] (x : Int),
          (if c then strconv.Parsed.err strconv.NumError.ErrRange else strconv.Parsed.ok x) =
            strconv.Parsed.ok n → ¬ c ∧ x = n := by
        intro c _ x hx
        by_cases hc : c
        · simp [hc] at hx
        · simpa [hc] using hx
      split at h
      · simp at h
        obtain ⟨h1, h2⟩ := key _ _ h
        omega
      · split at h
        · simp at h
          obtain ⟨h1, h2⟩ := key _ _ h
          omega
        · simp at h
          obtain ⟨h1, h2⟩ := key _ _ h
          omega


/-- What `parseOne` does with `-reconcile-concurrency=value` at the front: it
stores what `strconv.ParseInt` reads from `value`, or fails. -/
theorem parseOne_reconcileConcurrency (zs : List (flag.Flag Vars)) (value : String)
    (rest : List String) (v : Vars) :
    (flag.FlagSet.parseOne
        { formal := mainFlags ++ zs, args := ("-reconcile-concurrency=" ++ value) :: rest } v =
      match strconv.ParseInt value 0 strconv.IntSize with
      | .ok n => .seen { formal := mainFlags ++ zs, args := rest }
          { v with reconcileConcurrency := n }
      | .err _ => .fail .failf) ∧
    (flag.FlagSet.parseOne
        { formal := mainFlags ++ zs, args := ("--reconcile-concurrency=" ++ value) :: rest } v =
      match strconv.ParseInt value 0 strconv.IntSize with
      | .ok n => .seen { formal := mainFlags ++ zs, args := rest }
          { v with reconcileConcurrency := n }
      | .err _ => .fail .failf) ∧
    (flag.FlagSet.parseOne
        { formal := mainFlags ++ zs, args := "-reconcile-concurrency" :: value :: rest } v =
      match strconv.ParseInt value 0 strconv.IntSize with
      | .ok n => .seen { formal := mainFlags ++ zs, args := rest }
          { v with reconcileConcurrency := n }
      | .err _ => .fail .failf) ∧
    (flag.FlagSet.parseOne
        { formal := mainFlags ++ zs, args := "--reconcile-concurrency" :: value :: rest } v =
      match strconv.ParseInt value 0 strconv.IntSize with
      | .ok n => .seen { formal := mainFlags ++ zs, args := rest }
          { v with reconcileConcurrency := n }
      | .err _ => .fail .failf) := by
  refine ⟨?_, ?_, ?_, ?_⟩ <;>
    (cases h : strconv.ParseInt value 0 strconv.IntSize <;>
      simp [flag.FlagSet.parseOne, flag.FlagSet.lookup, mainFlags, flag.cutValue,
        flag.newIntValue, flag.newBoolValue, flag.newStringValue, h])

theorem unread_some {pkg : ray.Package} {zapFlags : List k8szap.BoundFlag}
    {args left : List String} (h : unread pkg zapFlags args = some left) :
    ∃ (f f' : flag.FlagSet Vars) (v' : Vars), f.formal = mainFlags ++ zapFlags.map zapFlag ∧
      f.Parse args defaults = some (.ok f' v') ∧ f'.args = left := by
  unfold unread at h
  rw [defineFlags_eq] at h
  cases hb : BindFlags zapFlags { formal := mainFlags, args := [] } with
  | none => rw [hb] at h; simp at h
  | some f =>
    rw [hb] at h
    simp only [Option.bind] at h
    obtain ⟨h1, _⟩ := BindFlags_some _ _ _ hb
    cases hp : f.Parse args defaults with
    | none => rw [hp] at h; simp at h
    | some p =>
      rw [hp] at h
      cases p with
      | error e => simp at h
      | ok f' w =>
        simp only [Option.some.injEq] at h
        exact ⟨f, f', w, h1, hp, h⟩

/-- `Parse` uses the flags of the flag set only, not the arguments it held. -/
theorem Parse_formal (f g : flag.FlagSet Vars) (hfg : f.formal = g.formal)
    (args : List String) (v : Vars) : f.Parse args v = g.Parse args v := by
  unfold flag.FlagSet.Parse
  rw [hfg]

/-- Parsing a command line that starts with `-reconcile-concurrency` and a
value: if it ends without error, `strconv.ParseInt` reads an integer from the
value, and the rest is parsed with that integer in the variable. -/
theorem Parse_reconcileConcurrency {f f' : flag.FlagSet Vars} {zs : List (flag.Flag Vars)}
    {mid rest : List String} {value : String} {v v' : Vars}
    (hform : f.formal = mainFlags ++ zs)
    (hmid : flag.spells mid "reconcile-concurrency" value)
    (h : f.Parse (mid ++ rest) v = some (.ok f' v')) :
    ∃ n, strconv.ParseInt value 0 strconv.IntSize = .ok n ∧
      f.Parse rest { v with reconcileConcurrency := n } = some (.ok f' v') := by
  obtain ⟨p1, p2, p3, p4⟩ := parseOne_reconcileConcurrency zs value rest v
  have e1 : "-" ++ "reconcile-concurrency" ++ "=" ++ value = "-reconcile-concurrency=" ++ value :=
    rfl
  have e2 : "--" ++ "reconcile-concurrency" ++ "=" ++ value =
      "--reconcile-concurrency=" ++ value := rfl
  have e3 : "-" ++ "reconcile-concurrency" = "-reconcile-concurrency" := rfl
  have e4 : "--" ++ "reconcile-concurrency" = "--reconcile-concurrency" := rfl
  unfold flag.FlagSet.Parse at h ⊢
  rw [hform] at h ⊢
  rcases hmid with rfl | rfl | rfl | rfl
  · rw [e1] at h
    simp only [List.singleton_append, List.length_cons] at h
    rw [flag.FlagSet.parseLoop, p1] at h
    cases hn : strconv.ParseInt value 0 strconv.IntSize with
    | err e => rw [hn] at h; simp at h
    | ok n =>
      rw [hn] at h
      exact ⟨n, rfl, h⟩
  · rw [e2] at h
    simp only [List.singleton_append, List.length_cons] at h
    rw [flag.FlagSet.parseLoop, p2] at h
    cases hn : strconv.ParseInt value 0 strconv.IntSize with
    | err e => rw [hn] at h; simp at h
    | ok n =>
      rw [hn] at h
      exact ⟨n, rfl, h⟩
  · rw [e3] at h
    simp only [List.cons_append, List.nil_append, List.length_cons] at h
    rw [flag.FlagSet.parseLoop, p3] at h
    cases hn : strconv.ParseInt value 0 strconv.IntSize with
    | err e => rw [hn] at h; simp at h
    | ok n =>
      rw [hn] at h
      simp only at h
      rw [flag.parseLoop_enough _ _ (rest.length + 1) _ (by simp) (by omega)] at h
      exact ⟨n, rfl, h⟩
  · rw [e4] at h
    simp only [List.cons_append, List.nil_append, List.length_cons] at h
    rw [flag.FlagSet.parseLoop, p4] at h
    cases hn : strconv.ParseInt value 0 strconv.IntSize with
    | err e => rw [hn] at h; simp at h
    | ok n =>
      rw [hn] at h
      simp only at h
      rw [flag.parseLoop_enough _ _ (rest.length + 1) _ (by simp) (by omega)] at h
      exact ⟨n, rfl, h⟩

/-- The last `-reconcile-concurrency` that `flag.Parse` reads decides the
variable: when it reads all of `pre`, then the flag with `value`, and no
argument of `rest` names the flag, the variable ends as the integer that
`strconv.ParseInt` reads from `value`. -/
theorem parseFlags_reconcileConcurrency {pkg : ray.Package}
    {zapFlags : List k8szap.BoundFlag} {pre mid rest : List String} {value : String}
    {v : Vars} (h : parseFlags pkg zapFlags (pre ++ mid ++ rest) = .ok v)
    (hmid : flag.spells mid "reconcile-concurrency" value)
    (hpre : unread pkg zapFlags pre = some []) (hterm : "--" ∉ pre)
    (hrest : flag.passes rest "reconcile-concurrency" = false) :
    strconv.ParseInt value 0 strconv.IntSize = .ok v.reconcileConcurrency := by
  obtain ⟨f, f', hform, hclash, hp⟩ := parseFlags_ok h
  obtain ⟨g, g1, v1, hg, hg1, hleft⟩ := unread_some hpre
  rw [Parse_formal g f (hg.trans hform.symm)] at hg1
  rw [List.append_assoc, flag.Parse_append (mid ++ rest) hg1 hleft hterm] at hp
  obtain ⟨n, hn, hp'⟩ := Parse_reconcileConcurrency hform hmid hp
  have hb := binds_all binds_reconcileConcurrency (by decide) hclash
  have := flag.Parse_not_passed (hform ▸ hb) hrest hp'
  simp only at this
  rw [this, hn]

/-- Every string is a value the watch-namespace flag can take: the command
line `-watch-namespace=x` is parsed without error and leaves `x` in the flag
variable, all other variables at the default of their flag. -/
theorem parseFlags_watchNamespace (pkg : ray.Package) (x : String) :
    parseFlags pkg [] ["-watch-namespace=" ++ x] = .ok { defaults with watchNamespace := x } :=
  rfl

/-! ## Properties of `main` -/

/-- C1: the disruptive-upgrade override defaults to false. Whenever
`flag.Parse` has returned in `main`, `ray.ForcedClusterUpgrade` is false if the
command line does not pass `-forced-cluster-upgrade`, whatever the variable
held before, and it is true only if the command line gives the flag as true. -/
theorem forcedClusterUpgrade_default_false (pkg : ray.Package)
    (zapFlags : List k8szap.BoundFlag) (args : List String) (v : Vars)
    (h : parseFlags pkg zapFlags args = .ok v) :
    (flag.passes args "forced-cluster-upgrade" = false → v.ray.ForcedClusterUpgrade = false) ∧
      (v.ray.ForcedClusterUpgrade = true → flag.givesTrue args "forced-cluster-upgrade") :=
  bool_flag_default_false binds_forcedClusterUpgrade (by decide) rfl h

/-- Two command lines for the statement above. The first does not pass the
flag and starts with the variable at true: after parsing it is false. The
second gives `--forced-cluster-upgrade=T`: the variable is true, and the
statement finds the argument that gives it. -/
theorem forcedClusterUpgrade_default_false_witness :
    (parseFlags ⟨true, true⟩ [] ["-watch-namespace=a,b", "-reconcile-concurrency", "4"] =
        .ok { defaults with watchNamespace := "a,b", reconcileConcurrency := 4 } ∧
      flag.passes ["-watch-namespace=a,b", "-reconcile-concurrency", "4"]
        "forced-cluster-upgrade" = false ∧
      ({ defaults with watchNamespace := "a,b", reconcileConcurrency := 4 } :
        Vars).ray.ForcedClusterUpgrade = false) ∧
    (parseFlags ⟨false, false⟩ [] ["--forced-cluster-upgrade=T"] =
        .ok { defaults with ray := ⟨true, false⟩ } ∧
      ({ defaults with ray := ⟨true, false⟩ } : Vars).ray.ForcedClusterUpgrade = true ∧
      flag.givesTrue ["--forced-cluster-upgrade=T"] "forced-cluster-upgrade") :=
  ⟨⟨by decide, by decide,
      (forcedClusterUpgrade_default_false ⟨true, true⟩ []
        ["-watch-namespace=a,b", "-reconcile-concurrency", "4"]
        { defaults with watchNamespace := "a,b", reconcileConcurrency := 4 } (by decide)).1
        (by decide)⟩,
    ⟨by decide, rfl,
      (forcedClusterUpgrade_default_false ⟨false, false⟩ [] ["--forced-cluster-upgrade=T"]
        { defaults with ray := ⟨true, false⟩ } (by decide)).2 rfl⟩⟩

/-- C6: gang scheduling is off by default. Whenever `flag.Parse` has returned
in `main`, `ray.EnableBatchScheduler` is false if the command line does not
pass `-enable-batch-scheduler`, whatever the variable held before, and it is
true only if the command line gives the flag as true. -/
theorem enableBatchScheduler_default_false (pkg : ray.Package)
    (zapFlags : List k8szap.BoundFlag) (args : List String) (v : Vars)
    (h : parseFlags pkg zapFlags args = .ok v) :
    (flag.passes args "enable-batch-scheduler" = false → v.ray.EnableBatchScheduler = false) ∧
      (v.ray.EnableBatchScheduler = true → flag.givesTrue args "enable-batch-scheduler") :=
  bool_flag_default_false binds_enableBatchScheduler (by decide) rfl h

/-- Two command lines for the statement above. The first, with a boolean zap
flag bound, passes other flags only and starts with the variable at true:
after parsing it is false. The second passes `-enable-batch-scheduler` alone:
the variable is true. -/
theorem enableBatchScheduler_default_false_witness :
    (parseFlags ⟨true, true⟩ [⟨"zap-devel", true, fun _ => true⟩]
          ["-zap-devel", "-forced-cluster-upgrade"] =
        .ok { defaults with ray := ⟨true, false⟩ } ∧
      flag.passes ["-zap-devel", "-forced-cluster-upgrade"] "enable-batch-scheduler" = false ∧
      ({ defaults with ray := ⟨true, false⟩ } : Vars).ray.EnableBatchScheduler = false) ∧
    (parseFlags ⟨false, false⟩ [] ["-enable-batch-scheduler"] =
        .ok { defaults with ray := ⟨false, true⟩ } ∧
      ({ defaults with ray := ⟨false, true⟩ } : Vars).ray.EnableBatchScheduler = true ∧
      flag.givesTrue ["-enable-batch-scheduler"] "enable-batch-scheduler") :=
  ⟨⟨rfl, by decide,
      (enableBatchScheduler_default_false ⟨true, true⟩ [⟨"zap-devel", true, fun _ => true⟩]
        ["-zap-devel", "-forced-cluster-upgrade"]
        { defaults with ray := ⟨true, false⟩ } rfl).1 (by decide)⟩,
    ⟨by decide, rfl,
      (enableBatchScheduler_default_false ⟨false, false⟩ [] ["-enable-batch-scheduler"]
        { defaults with ray := ⟨false, true⟩ } (by decide)).2 rfl⟩⟩

/-- C3 as stated fails: the command line `-reconcile-concurrency=0` is
accepted, and `main` passes the concurrency 0, which is not at least 1, to
`SetupWithManager`. -/
theorem reconcileConcurrency_zero_passed :
    ∃ r, main ⟨false, false⟩ [] ["-reconcile-concurrency=0"] = .ok r ∧
      r.reconcileConcurrency = 0 ∧ ¬ 1 ≤ r.reconcileConcurrency :=
  ⟨{ vars := { defaults with reconcileConcurrency := 0 }
     options :=
      { MetricsBindAddress := ":8080", Port := 9443, HealthProbeBindAddress := ":8082",
        LeaderElection := true, LeaderElectionID := "ray-operator-leader", Namespace := "",
        NewCache := none }
     reconcileConcurrency := 0 }, by decide, rfl, by decide⟩

/-- C3, amended: for every command line `main` accepts, the concurrency passed
to the RayCluster reconciler's `SetupWithManager` is exactly 1 when no argument
names `-reconcile-concurrency`. When the command line is `pre`, then the flag
with `value` (`-reconcile-concurrency=value` with one or two dashes, or the
flag and `value` as two arguments), then `rest`, where `flag.Parse` run on
`pre` alone leaves no argument unread, `pre` does not hold the terminator `--`
and no argument of `rest` names the flag, the concurrency passed is exactly the
integer that `strconv.ParseInt` reads from `value`. In every case it is 1 or
the integer that `strconv.ParseInt` reads from a value some argument gives to
the flag, and it lies in the range of a 64-bit `int`; `main` sets no lower
bound of 1. -/
theorem reconcileConcurrency_as_given (pkg : ray.Package)
    (zapFlags : List k8szap.BoundFlag) (args : List String) (r : Run)
    (h : main pkg zapFlags args = .ok r) :
    (flag.passes args "reconcile-concurrency" = false → r.reconcileConcurrency = 1) ∧
      (∀ pre mid rest value, args = pre ++ mid ++ rest →
        flag.spells mid "reconcile-concurrency" value →
        unread pkg zapFlags pre = some [] → "--" ∉ pre →
        flag.passes rest "reconcile-concurrency" = false →
        strconv.ParseInt value 0 strconv.IntSize = .ok r.reconcileConcurrency) ∧
      (r.reconcileConcurrency = 1 ∨
        ∃ value, flag.gives args "reconcile-concurrency" value ∧
          strconv.ParseInt value 0 strconv.IntSize = .ok r.reconcileConcurrency) ∧
      (-(2 ^ 63) ≤ r.reconcileConcurrency ∧ r.reconcileConcurrency < 2 ^ 63) := by
  obtain ⟨hp, _, _, hrc⟩ := main_ok h
  rw [hrc]
  have hb := parseFlags_bound binds_reconcileConcurrency (by decide) hp
  have hdec : ∀ value, decInt value = some r.vars.reconcileConcurrency →
      strconv.ParseInt value 0 strconv.IntSize = .ok r.vars.reconcileConcurrency := by
    intro value hd
    unfold decInt at hd
    split at hd
    · rename_i n hn
      simp only [Option.some.injEq] at hd
      rw [hn, hd]
    · simp at hd
  refine ⟨fun hn => parseFlags_not_passed binds_reconcileConcurrency (by decide) hp hn,
    ?_, ?_, ?_⟩
  · intro pre mid rest value hargs hmid hpre hterm hrest
    rw [hargs] at hp
    exact parseFlags_reconcileConcurrency hp hmid hpre hterm hrest
  · rcases hb with h0 | ⟨value, hd, hg | ⟨hf, _⟩⟩
    · exact Or.inl h0
    · exact Or.inr ⟨value, hg, hdec value hd⟩
    · exact absurd hf (by simp)
  · rcases hb with h0 | ⟨value, hd, _⟩
    · rw [h0]
      simp [defaults]
    · exact ParseInt_range (hdec value hd)

/-- A command line for the statement above: `-metrics-addr :9090`, then
`--reconcile-concurrency -3`, then `-watch-namespace=a`. It is accepted,
`flag.Parse` leaves nothing of the first two arguments unread, and the
concurrency passed on is -3, the integer `strconv.ParseInt` reads from the
value given. -/
theorem reconcileConcurrency_as_given_witness :
    main ⟨false, false⟩ []
        ["-metrics-addr", ":9090", "--reconcile-concurrency", "-3", "-watch-namespace=a"] =
        .ok
          { vars :=
              { defaults with
                metricsAddr := ":9090", reconcileConcurrency := -3, watchNamespace := "a" }
            options :=
              { MetricsBindAddress := ":9090", Port := 9443, HealthProbeBindAddress := ":8082",
                LeaderElection := true, LeaderElectionID := "ray-operator-leader",
                Namespace := "a", NewCache := none }
            reconcileConcurrency := -3 } ∧
      unread ⟨false, false⟩ [] ["-metrics-addr", ":9090"] = some [] ∧
      flag.passes ["-watch-namespace=a"] "reconcile-concurrency" = false ∧
      strconv.ParseInt "-3" 0 strconv.IntSize = .ok (-3) :=
  ⟨by decide, by decide, by decide,
    (reconcileConcurrency_as_given ⟨false, false⟩ []
      ["-metrics-addr", ":9090", "--reconcile-concurrency", "-3", "-watch-namespace=a"]
      { vars :=
          { defaults with
            metricsAddr := ":9090", reconcileConcurrency := -3, watchNamespace := "a" }
        options :=
          { MetricsBindAddress := ":9090", Port := 9443, HealthProbeBindAddress := ":8082",
            LeaderElection := true, LeaderElectionID := "ray-operator-leader",
            Namespace := "a", NewCache := none }
        reconcileConcurrency := -3 } (by decide)).2.1
      ["-metrics-addr", ":9090"] ["--reconcile-concurrency", "-3"] ["-watch-namespace=a"] "-3"
      rfl (Or.inr (Or.inr (Or.inr rfl))) (by decide) (by decide) (by decide)⟩

/-- C4: if the watch-namespace flag is left empty, all namespaces are watched.
For every run of `main` that reaches the manager set-up, the value of
`-watch-namespace` is empty when the command line does not pass the flag, and
when the value is empty the manager options have `Namespace` equal to `""` and
`NewCache` unset. -/
theorem empty_watchNamespace_all_namespaces (pkg : ray.Package)
    (zapFlags : List k8szap.BoundFlag) (args : List String) (r : Run)
    (h : main pkg zapFlags args = .ok r) :
    (flag.passes args "watch-namespace" = false → r.vars.watchNamespace = "") ∧
      (r.vars.watchNamespace = "" → r.options.Namespace = "" ∧ r.options.NewCache = none) := by
  obtain ⟨hp, _, ho, _⟩ := main_ok h
  refine ⟨fun hn => parseFlags_not_passed binds_watchNamespace (by decide) hp hn, ?_⟩
  intro he
  unfold managerOptions at ho
  rw [he] at ho
  simp only [show strings.Split "" ',' = [""] from rfl, List.length_singleton, if_true,
    List.getElem?_cons_zero, Option.some.injEq] at ho
  rw [← ho]
  exact ⟨rfl, rfl⟩

/-- A command line for the statement above: it sets the metrics address and
does not pass `-watch-namespace`; the run reaches the manager set-up with an
empty flag value, an empty `Namespace` and no `NewCache`. -/
theorem empty_watchNamespace_all_namespaces_witness :
    main ⟨false, false⟩ [] ["-metrics-addr", ":9090"] =
        .ok
          { vars := { defaults with metricsAddr := ":9090" }
            options :=
              { MetricsBindAddress := ":9090", Port := 9443, HealthProbeBindAddress := ":8082",
                LeaderElection := true, LeaderElectionID := "ray-operator-leader",
                Namespace := "", NewCache := none }
            reconcileConcurrency := 1 } ∧
      flag.passes ["-metrics-addr", ":9090"] "watch-namespace" = false ∧
      ({ defaults with metricsAddr := ":9090" } : Vars).watchNamespace = "" :=
  ⟨by decide, by decide,
    (empty_watchNamespace_all_namespaces ⟨false, false⟩ [] ["-metrics-addr", ":9090"]
      { vars := { defaults with metricsAddr := ":9090" }
        options :=
          { MetricsBindAddress := ":9090", Port := 9443, HealthProbeBindAddress := ":8082",
            LeaderElection := true, LeaderElectionID := "ray-operator-leader",
            Namespace := "", NewCache := none }
        reconcileConcurrency := 1 } (by decide)).1 (by decide)⟩

/-- C5: the watch-namespace flag is a comma-separated list of namespaces. For
every run of `main` that reaches the manager set-up, the flag value is `""`
(the default) or a value the command line gives to `-watch-namespace`. If it
contains a comma, `options.Namespace` stays empty and `options.NewCache` is the
multi-namespace cache builder over the comma-separated segments of the value
in their order: at least two strings without a comma that joined by commas
give back the value, and the only such list. If it is non-empty and contains
no comma, `options.Namespace` is the value itself and `NewCache` is unset. -/
theorem watchNamespace_comma_separated (pkg : ray.Package)
    (zapFlags : List k8szap.BoundFlag) (args : List String) (r : Run)
    (h : main pkg zapFlags args = .ok r) :
    (r.vars.watchNamespace = "" ∨ flag.gives args "watch-namespace" r.vars.watchNamespace) ∧
      (',' ∈ r.vars.watchNamespace.data →
        r.options.Namespace = "" ∧
          ∃ segs, r.options.NewCache = some (cache.NewCacheFunc.MultiNamespacedCacheBuilder segs) ∧
            2 ≤ segs.length ∧ strings.Join segs "," = r.vars.watchNamespace ∧
            (∀ seg ∈ segs, ',' ∉ seg.data) ∧
            ∀ segs', segs' ≠ [] → (∀ seg ∈ segs', ',' ∉ seg.data) →
              strings.Join segs' "," = r.vars.watchNamespace → segs' = segs) ∧
      (r.vars.watchNamespace ≠ "" → ',' ∉ r.vars.watchNamespace.data →
        r.options.Namespace = r.vars.watchNamespace ∧ r.options.NewCache = none) := by
  obtain ⟨hp, _, ho, _⟩ := main_ok h
  refine ⟨?_, ?_, ?_⟩
  · rcases parseFlags_bound binds_watchNamespace (by decide) hp with h0 | ⟨value, hd, hg | ⟨hf, _⟩⟩
    · exact Or.inl h0
    · simp only [Option.some.injEq] at hd
      exact Or.inr (hd ▸ hg)
    · exact absurd hf (by simp)
  · intro hc
    have hlen : (strings.Split r.vars.watchNamespace ',').length ≠ 1 := by
      intro h1
      exact (strings.Split_length_eq_one _ _).mp h1 hc
    unfold managerOptions at ho
    simp only [hlen, if_false, Option.some.injEq] at ho
    rw [← ho]
    have hjoin : strings.Join (strings.Split r.vars.watchNamespace ',') "," =
        r.vars.watchNamespace := strings.genSplitLoop_join ',' _ _ rfl
    have hclean : ∀ seg ∈ strings.Split r.vars.watchNamespace ',', ',' ∉ seg.data :=
      strings.genSplitLoop_clean ',' _ _ rfl
    refine ⟨rfl, _, rfl, ?_, hjoin, hclean, ?_⟩
    · have := strings.Split_length r.vars.watchNamespace ','
      have := strings.Split_length_eq_one r.vars.watchNamespace ','
      omega
    · intro segs' hne hcl hj
      exact strings.Join_unique ',' segs' _ hne (strings.genSplitLoop_ne_nil _ _ _) hcl hclean
        (hj.trans hjoin.symm)
  · intro _ hc
    unfold managerOptions at ho
    rw [strings.Split_of_not_mem _ _ hc] at ho
    simp only [List.length_singleton, if_true, List.getElem?_cons_zero,
      Option.some.injEq] at ho
    rw [← ho]
    exact ⟨rfl, rfl⟩

/-- A command line for the statement above: `--watch-namespace team-a,,team-b`
reaches the manager set-up with `Namespace` empty and the cache builder over
`team-a`, the empty string and `team-b`; the statement gives back a list of
segments under the builder that joins to the flag value. -/
theorem watchNamespace_comma_separated_witness :
    main ⟨false, false⟩ [] ["--watch-namespace", "team-a,,team-b"] =
        .ok
          { vars := { defaults with watchNamespace := "team-a,,team-b" }
            options :=
              { MetricsBindAddress := ":8080", Port := 9443, HealthProbeBindAddress := ":8082",
                LeaderElection := true, LeaderElectionID := "ray-operator-leader",
                Namespace := "",
                NewCache := some
                  (cache.NewCacheFunc.MultiNamespacedCacheBuilder ["team-a", "", "team-b"]) }
            reconcileConcurrency := 1 } ∧
      ',' ∈ ("team-a,,team-b" : String).data ∧
      ∃ segs, some (cache.NewCacheFunc.MultiNamespacedCacheBuilder ["team-a", "", "team-b"]) =
          some (cache.NewCacheFunc.MultiNamespacedCacheBuilder segs) ∧
        strings.Join segs "," = "team-a,,team-b" :=
  ⟨by decide, by decide,
    (((watchNamespace_comma_separated ⟨false, false⟩ [] ["--watch-namespace", "team-a,,team-b"]
      { vars := { defaults with watchNamespace := "team-a,,team-b" }
        options :=
          { MetricsBindAddress := ":8080", Port := 9443, HealthProbeBindAddress := ":8082",
            LeaderElection := true, LeaderElectionID := "ray-operator-leader",
            Namespace := "",
            NewCache := some
              (cache.NewCacheFunc.MultiNamespacedCacheBuilder ["team-a", "", "team-b"]) }
        reconcileConcurrency := 1 } (by decide)).2.1 (by decide)).2).imp
      (fun _ hs => ⟨hs.1, hs.2.2.1⟩)⟩

/-- C7: for every string value of the watch-namespace flag, the empty string
included, splitting it on `","` yields a list of length at least 1, so
`watchNamespaces[0]` is there and building the manager options never fails for
any flag variables; and the list has length exactly 1 if and only if the value
contains no comma. -/
theorem watchNamespaces_never_empty (value : String) (v : Vars) :
    1 ≤ (strings.Split value ',').length ∧
      (strings.Split value ',')[0]? ≠ none ∧
      managerOptions v ≠ none ∧
      ((strings.Split value ',').length = 1 ↔ ',' ∉ value.data) := by
  have hlen := strings.Split_length value ','
  refine ⟨by omega, ?_, ?_, strings.Split_length_eq_one value ','⟩
  · rw [Ne, List.getElem?_eq_none_iff]
    omega
  · unfold managerOptions
    simp only
    split
    · rename_i h1
      have h0 : (strings.Split v.watchNamespace ',')[0]? ≠ none := by
        rw [Ne, List.getElem?_eq_none_iff]
        omega
      split
      · rename_i hn
        exact absurd hn h0
      · simp
    · simp

end operator
